import Mathlib

/-!
# lastwind: unit and display formatter (`internal/nws/format.go`)

A shallow embedding of the formatter functions of the weather client and
theorems about them.

Modelling conventions.

* A Go `float64` is a rational number (`ℚ`): every finite `float64` is one.
  Where the rounding of float64 arithmetic decides the result, the operation
  is rounded to the nearest float64 with `roundFloat64`: the product that
  `FormatWind` prints, and the number that the JSON decoder stores. The unit
  conversions are also given in their exact reading, and the quotient of
  `CompassDir` is taken exactly.
* A Go `*float64` is an `Option ℚ` (`none` is the nil pointer).
* A Go function that can stop with a run-time panic returns an `Option`:
  `none` is the panic, `some r` is the normal return of `r`.
* A Go `int` is an `Int`; 64-bit wrap-around is not reachable for the inputs
  considered and is not modelled.
-/

namespace Lastwind

/-! ## Strings -/

/-- A Go `string`: an arbitrary sequence of bytes (not necessarily well-formed
UTF-8). `len(s)` is `s.length`. -/
abbrev GoString := List UInt8

/-- The Go string literal with the given text: its UTF-8 encoding. -/
def go (s : String) : GoString := s.data.flatMap String.utf8EncodeChar

/-- Go's `strings.Join`. -/
def Join : List GoString → GoString → GoString
  | [], _ => []
  | [a], _ => a
  | a :: b :: rest, sep => a ++ sep ++ Join (b :: rest) sep

/-- Go's slice expression `s[:n]`: a panic (`none`) unless `0 ≤ n ≤ len(s)`. -/
def slicePrefix (s : GoString) (n : ℤ) : Option GoString :=
  if 0 ≤ n ∧ n ≤ (s.length : ℤ) then some (s.take n.toNat) else none

/-- Least value that Go's decoder accepts for the second byte of a sequence
with the leading byte `x` (the `acceptRanges` table of `unicode/utf8`). -/
def secondLo (x : ℕ) : ℕ :=
  if x = 0xE0 then 0xA0 else if x = 0xF0 then 0x90 else 0x80

/-- Greatest value accepted for the second byte after the leading byte `x`. -/
def secondHi (x : ℕ) : ℕ :=
  if x = 0xED then 0x9F else if x = 0xF4 then 0x8F else 0xBF

/-- A continuation byte: `0x80 ≤ y ≤ 0xBF`. -/
def isCont (y : ℕ) : Bool := decide (0x80 ≤ y) && decide (y ≤ 0xBF)

/-- Go's `utf8.DecodeRuneInString` on a non-empty string: the first rune and
the number of bytes it occupies. An ill-formed or truncated sequence decodes to
`(0xFFFD, 1)`. On the empty string the width is `0`. -/
def decodeRune : GoString → ℕ × ℕ
  | [] => (0xFFFD, 0)
  | b0 :: rest =>
    let x := b0.toNat
    if x < 0x80 then (x, 1)
    else if 0xC2 ≤ x ∧ x ≤ 0xDF then
      match rest with
      | b1 :: _ =>
        if isCont b1.toNat then (x % 32 * 64 + b1.toNat % 64, 2) else (0xFFFD, 1)
      | _ => (0xFFFD, 1)
    else if 0xE0 ≤ x ∧ x ≤ 0xEF then
      match rest with
      | b1 :: b2 :: _ =>
        if secondLo x ≤ b1.toNat ∧ b1.toNat ≤ secondHi x ∧ isCont b2.toNat then
          (x % 16 * 4096 + b1.toNat % 64 * 64 + b2.toNat % 64, 3)
        else (0xFFFD, 1)
      | _ => (0xFFFD, 1)
    else if 0xF0 ≤ x ∧ x ≤ 0xF4 then
      match rest with
      | b1 :: b2 :: b3 :: _ =>
        if secondLo x ≤ b1.toNat ∧ b1.toNat ≤ secondHi x ∧ isCont b2.toNat ∧
            isCont b3.toNat then
          (x % 8 * 262144 + b1.toNat % 64 * 4096 + b2.toNat % 64 * 64 + b3.toNat % 64, 4)
        else (0xFFFD, 1)
      | _ => (0xFFFD, 1)
    else (0xFFFD, 1)

/-- The iteration `for _, r := range s` of Go: the runes of `s` in order, each
with the bytes it was decoded from. The first argument bounds the number of
iterations; `s.length` is always enough, since every step consumes a byte. -/
def rangeRunes : ℕ → GoString → List (ℕ × GoString)
  | 0, _ => []
  | _ + 1, [] => []
  | fuel + 1, b :: rest =>
    let rw := decodeRune (b :: rest)
    (rw.1, (b :: rest).take rw.2) :: rangeRunes fuel ((b :: rest).drop rw.2)

/-- Go's `utf8.RuneCountInString`: the number of characters of `s`. -/
def RuneCount (s : GoString) : ℕ := (rangeRunes s.length s).length

/-- Go's `utf8.ValidString`: no step of the iteration meets an ill-formed
sequence (which is what decodes to `0xFFFD` with width `1`). -/
def ValidString (s : GoString) : Bool :=
  (rangeRunes s.length s).all (fun rb => !(rb.1 = 0xFFFD && rb.2.length = 1))

/-- Go's `unicode.IsSpace`. -/
def IsSpace (r : ℕ) : Bool :=
  r = 0x09 || r = 0x0A || r = 0x0B || r = 0x0C || r = 0x0D || r = 0x20 ||
  r = 0x85 || r = 0xA0 || r = 0x1680 || (0x2000 ≤ r && r ≤ 0x200A) ||
  r = 0x2028 || r = 0x2029 || r = 0x202F || r = 0x205F || r = 0x3000

/-- The loop of Go's `strings.FieldsFunc` over the decoded runes: `cur` holds
the bytes of the field that is open (empty when none is: a field is opened by
a rune that is not white space, and a rune has at least one byte). -/
def fieldsLoop : List (ℕ × GoString) → GoString → List GoString
  | [], cur => if cur = [] then [] else [cur]
  | (r, bs) :: rest, cur =>
    if IsSpace r then
      if cur = [] then fieldsLoop rest [] else cur :: fieldsLoop rest []
    else fieldsLoop rest (cur ++ bs)

/-- Go's `strings.Fields`: the maximal runs of non-white-space characters. -/
def Fields (s : GoString) : List GoString :=
  fieldsLoop (rangeRunes s.length s) []

/-! ## float64 arithmetic -/

/-- Round to the nearest integer, halves to the even neighbour: the rounding
of IEEE 754 arithmetic and of Go's `%.0f`. -/
def roundHalfEven (x : ℚ) : ℤ :=
  let f := ⌊x⌋
  if x - f < 1 / 2 then f
  else if 1 / 2 < x - f then f + 1
  else if f % 2 = 0 then f else f + 1

/-- The float64 (IEEE 754 binary64) nearest to the rational `x`, ties to the
even significand: the value a decimal literal `x` denotes and the value a
float64 operation returns when its exact result is `x`. The significand has 53
bits, so between `2^e` and `2^(e+1)` the float64 values are the multiples of
`2^(e-52)`; below `2^(-1022)` they are the multiples of `2^(-1074)`. A result
of magnitude `2^1024` stands for an overflow to infinity. -/
def roundFloat64 (x : ℚ) : ℚ :=
  if x = 0 then 0
  else
    let e := max (Int.log 2 |x|) (-1022)
    let ulp : ℚ := 2 ^ (e - 52)
    roundHalfEven (x / ulp) * ulp

/-- Go's `strconv.ParseFloat(s, 64)` on a decimal literal of exact value `x`:
the nearest float64, or an error (`none`, value out of range) when that
overflows. -/
def parseFloat64 (x : ℚ) : Option ℚ :=
  let r := roundFloat64 x
  if |r| < 2 ^ 1024 then some r else none

/-! ## Unit conversion -/

/-- `CToF` of `format.go`. -/
def CToF (c : ℚ) : ℚ := c * 9.0 / 5.0 + 32.0

/-- `KmhToMph` of `format.go` in its exact reading: `kmh * 0.621371`. -/
def KmhToMph (kmh : ℚ) : ℚ := kmh * 0.621371

/-- `KmhToMph` of `format.go` as float64 arithmetic computes it: the constant
is the float64 nearest to `0.621371` and the product is rounded to float64. -/
def KmhToMph64 (kmh : ℚ) : ℚ := roundFloat64 (kmh * roundFloat64 0.621371)

/-- `MetersToMiles` of `format.go`. -/
def MetersToMiles (m : ℚ) : ℚ := m / 1609.34

/-- `PaToInHg` of `format.go`. -/
def PaToInHg (pa : ℚ) : ℚ := pa / 3386.39

/-! ## Compass direction -/

/-- Go's `math.Round`: the nearest integer, halves rounded away from zero. -/
def mathRound (x : ℚ) : ℤ :=
  if 0 ≤ x then ⌊x + 1 / 2⌋ else -⌊-x + 1 / 2⌋

/-- The label table `dirs` of `CompassDir`. -/
def dirs : List GoString :=
  [go "N", go "NNE", go "NE", go "ENE", go "E", go "ESE", go "SE", go "SSE",
   go "S", go "SSW", go "SW", go "WSW", go "W", go "WNW", go "NW", go "NNW"]

/-- Go's slice indexing `xs[i]` with an `int` index: a panic (`none`) when the
index is negative or not below the length. -/
def index {α : Type} (xs : List α) (i : ℤ) : Option α :=
  if i < 0 then none else xs.get? i.toNat

/-- `CompassDir` of `format.go`. Go's `%` on `int` truncates towards zero
(`Int.tmod`). -/
def CompassDir (deg : Option ℚ) : Option GoString :=
  match deg with
  | none => some (go "")
  | some d =>
    let idx := Int.tmod (mathRound (d / 22.5)) 16
    index dirs idx

/-! ## Wind phrase -/

/-- Go's `fmt.Sprintf("%.0f", x)`: the sign, then the rounded magnitude in
decimal digits. -/
def fmtF0 (x : ℚ) : GoString :=
  if x < 0 then go "-" ++ go (Nat.repr (roundHalfEven (-x)).toNat)
  else go (Nat.repr (roundHalfEven x).toNat)

/-- `FormatWind` of `format.go`. The dereferences `*speed` and `*gust` are
guarded by `hasSpeed` and `hasGust`; the number printed is the float64 that
`KmhToMph` returns. -/
def FormatWind (dir speed gust : Option ℚ) : Option GoString :=
  let hasSpeed : Bool := match speed with
    | none => false
    | some s => decide (s > 0)
  let hasGust : Bool := match gust with
    | none => false
    | some g => decide (g > 0)
  if !hasSpeed && !hasGust then some (go "Calm")
  else
    match CompassDir dir with
    | none => none
    | some dirStr =>
      let parts : List GoString := []
      let parts := if dirStr ≠ go "" then parts ++ [dirStr]
        else if hasSpeed then parts ++ [go "Vrbl"] else parts
      let parts := if hasSpeed then parts ++ [fmtF0 (KmhToMph64 (speed.getD 0))] else parts
      let parts := if hasGust then parts ++ [go "G " ++ fmtF0 (KmhToMph64 (gust.getD 0))]
        else parts
      some (Join parts (go " "))

/-! ## Timestamp and placeholder formatting -/

/-- `FormatTime` of `format.go`. The two calls into Go's `time` package are
parameters: `parse ts` stands for `time.Parse(time.RFC3339, ts)` (`none` is a
non-nil error) and `render t` for `t.Local().Format("Jan 02 15:04")`, which
depends on the time zone of the machine. -/
def FormatTime {T : Type} (parse : GoString → Option T) (render : T → GoString)
    (ts : GoString) : GoString :=
  match parse ts with
  | none => ts
  | some t => render t

/-- `FmtVal` of `format.go`. The formatter `fn` is a Go function value: it may
panic (`none`). -/
def FmtVal (v : Option ℚ) (fn : ℚ → Option GoString) : Option GoString :=
  match v with
  | none => some (go "-")
  | some x => fn x

/-! ## Optional measurements (`internal/nws/types.go`) -/

/-- `NullFloat64` of `types.go`: the field `Value *float64`. -/
structure NullFloat64 where
  Value : Option ℚ
  deriving DecidableEq

/-- A JSON value as `encoding/json` meets it when it fills a field; a number
is given by the exact value of its decimal literal; arrays and objects are one
case, since a number field rejects both alike. -/
inductive JSONValue where
  | null
  | number (x : ℚ)
  | string (s : GoString)
  | bool (b : Bool)
  | composite
  deriving DecidableEq

/-- How `encoding/json` fills a `*float64`: the literal `null` sets the pointer
to nil; a number literal of exact value `x` is converted with
`strconv.ParseFloat` and, when that succeeds, a value is allocated and the
float64 stored; a number out of the float64 range and anything that is not a
number is an `UnmarshalTypeError` (`none`). -/
def unmarshalPtrFloat64 : JSONValue → Option (Option ℚ)
  | .null => some none
  | .number x =>
    match parseFloat64 x with
    | none => none
    | some r => some (some r)
  | _ => none

/-- The call `json.Unmarshal` into a `NullFloat64` on the record
`{"value": v}`; `none` is a returned error. -/
def unmarshalNullFloat64 (v : JSONValue) : Option NullFloat64 :=
  match unmarshalPtrFloat64 v with
  | none => none
  | some p => some { Value := p }

/-! ## Location detection (`internal/config/config.go`) -/

/-- `Config` of `config.go`. -/
structure Config where
  Station : GoString
  Latitude : ℚ
  Longitude : ℚ

/-- The variable `Default` of `config.go`. -/
def Default : Config :=
  { Station := go "KEIK", Latitude := 40.0388, Longitude := -105.0412 }

/-- `geoIPResponse` of `config.go`. -/
structure geoIPResponse where
  Status : GoString
  City : GoString
  Region : GoString
  Lat : ℚ
  Lon : ℚ

/-- `DetectedLocation` of `config.go`. -/
structure DetectedLocation where
  City : GoString
  Region : GoString
  Latitude : ℚ
  Longitude : ℚ
  Station : GoString
  StationName : GoString

/-- `DetectLocation` of `config.go`. The outcomes of the two network lookups
are parameters: `geoIP` is what `fetchGeoIP` returned (`none` is a non-nil
error, from the transport or the decoder) and `nearestStation lat lon` is what
`fetchNearestStation` returns for these coordinates (`none` is a non-nil
error, `some (id, name)` the station found). -/
def DetectLocation (geoIP : Option geoIPResponse)
    (nearestStation : ℚ → ℚ → Option (GoString × GoString)) : DetectedLocation :=
  let result : DetectedLocation :=
    { City := go "", Region := go "", Latitude := Default.Latitude,
      Longitude := Default.Longitude, Station := Default.Station, StationName := go "" }
  match geoIP with
  | none => result
  | some geo =>
    if geo.Status ≠ go "success" then result
    else
      let result := { result with
        City := geo.City, Region := geo.Region, Latitude := geo.Lat, Longitude := geo.Lon }
      match nearestStation geo.Lat geo.Lon with
      | none => result
      | some (station, name) => { result with Station := station, StationName := name }

/-! ## Text layout -/

/-- `Truncate` of `format.go`; `len(s)` counts bytes and `s[:maxLen-1]`
slices bytes. (At the least 64-bit `maxLen` the bound `maxLen - 1` wraps to the
greatest `int`, which is out of range as well: the panic is the same.) -/
def Truncate (s : GoString) (maxLen : ℤ) : Option GoString :=
  if (s.length : ℤ) ≤ maxLen then some s
  else
    match slicePrefix s (maxLen - 1) with
    | none => none
    | some p => some (p ++ go "…")

/-- One iteration of the loop of `WordWrap` on the state `(lines, current)`. -/
def wrapStep (width : ℤ) (st : List GoString × GoString) (w : GoString) :
    List GoString × GoString :=
  if (st.2.length : ℤ) + 1 + (w.length : ℤ) > width then (st.1 ++ [st.2], w)
  else (st.1, st.2 ++ (go " " ++ w))

/-- `WordWrap` of `format.go`. -/
def WordWrap (s : GoString) (width : ℤ) : List GoString :=
  match Fields s with
  | [] => []
  | w0 :: rest =>
    let st := rest.foldl (wrapStep width) ([], w0)
    st.1 ++ [st.2]

/-! ## Notions used to state the properties -/

/-- Distance around the 360-degree circle between two headings. -/
def circDist (a b : ℚ) : ℚ := min |a - b| (360 - |a - b|)

/-- The speed piece of a wind phrase: the rounded speed when it is positive. -/
def speedPart (speed : Option ℚ) : List GoString :=
  match speed with
  | none => []
  | some s => if 0 < s then [fmtF0 (KmhToMph64 s)] else []

/-- The gust piece of a wind phrase: `G` and the rounded gust when it is
positive. -/
def gustPart (gust : Option ℚ) : List GoString :=
  match gust with
  | none => []
  | some g => if 0 < g then [go "G " ++ fmtF0 (KmhToMph64 g)] else []

/-- The direction piece of a wind phrase, from the label `l` that `CompassDir`
returned. -/
def labelPart (l : GoString) (speed : Option ℚ) : List GoString :=
  if l ≠ [] then [l] else if speedPart speed ≠ [] then [go "Vrbl"] else []

/-- A group of words that may stand on one line of width `width`: a single
word, or several words whose single-space join is at most `width` long. -/
def fitsLine (width : ℤ) (g : List GoString) : Prop :=
  g ≠ [] ∧ (g.length = 1 ∨ ((([0x20] : GoString).intercalate g).length : ℤ) ≤ width)

/-- The float64 nearest to `5.632705742623972`, a wind speed in km/h. -/
def sampleSpeed : ℚ := roundFloat64 5.632705742623972

/-- A successful geolocation answer, away from the default coordinates. -/
def sampleGeo : geoIPResponse :=
  { Status := go "success", City := go "London", Region := go "England",
    Lat := 51.5, Lon := -0.12 }

/-- A sample of the `time` package for one input: the timestamp of the tests
parses (the parsed time is not inspected) and nothing else does. -/
def sampleParse (ts : GoString) : Option Unit :=
  if ts = go "2026-02-17T18:15:00+00:00" then some () else none

/-- The rendering of that instant on a machine five hours behind UTC. -/
def sampleRender (_ : Unit) : GoString := go "Feb 17 13:15"

/-- The words of one line: `current` of `WordWrap` is their single-space
join. `wrapGroups width cur ws` is the greedy grouping of the words that
`WordWrap` carries out, started with the open group `cur` and the remaining
words `ws`. -/
def wrapGroups (width : ℤ) : List GoString → List GoString → List (List GoString)
  | cur, [] => [cur]
  | cur, w :: ws =>
    if ((([0x20] : GoString).intercalate cur).length : ℤ) + 1 + (w.length : ℤ) > width then
      cur :: wrapGroups width [w] ws
    else wrapGroups width (cur ++ [w]) ws

/-! ## Theorems -/

theorem go_empty : go "" = [] := rfl

theorem go_space : go " " = [0x20] := by decide

theorem mathRound_of_nonneg {x : ℚ} (hx : 0 ≤ x) : mathRound x = round x := by
  simp [mathRound, hx, round_eq]

theorem compassDir_of_round {d : ℚ} {n : ℕ} (h0 : 0 ≤ d)
    (hn : round (d / 22.5) = (n : ℤ)) :
    CompassDir (some d) = dirs.get? (n % 16) := by
  have hx : (0 : ℚ) ≤ d / 22.5 := div_nonneg h0 (by norm_num)
  have h16 : Int.tmod (n : ℤ) 16 = ((n % 16 : ℕ) : ℤ) := by
    rw [Int.tmod_eq_emod (by omega) (by omega)]
    omega
  have hlt : ¬ (((n % 16 : ℕ) : ℤ) < 0) := by omega
  simp only [CompassDir, mathRound_of_nonneg hx, hn, h16, index, hlt, if_false,
    Int.toNat_ofNat]

/-- For a heading in `[0, 360]` the rounded quotient is one of `0, …, 16`. -/
theorem round_heading {d : ℚ} (h0 : 0 ≤ d) (h360 : d ≤ 360) :
    ∃ n : ℕ, n ≤ 16 ∧ round (d / 22.5) = (n : ℤ) := by
  have hx : (0 : ℚ) ≤ d / 22.5 := div_nonneg h0 (by norm_num)
  have hhi : (((round (d / 22.5) : ℤ)) : ℚ) ≤ d / 22.5 + 1 / 2 := by
    rw [round_eq]; exact Int.floor_le _
  have hn0 : (0 : ℤ) ≤ round (d / 22.5) := by
    rw [round_eq]; exact Int.floor_nonneg.mpr (by linarith)
  have hn16 : round (d / 22.5) < (17 : ℤ) := by
    have h1 : d / 22.5 ≤ 16 := by
      rw [div_le_iff₀ (by norm_num)]; linarith
    have h2 : ((round (d / 22.5) : ℤ) : ℚ) < ((17 : ℤ) : ℚ) := by
      push_cast; linarith
    exact Int.cast_lt.mp h2
  obtain ⟨n, hn⟩ := Int.eq_ofNat_of_zero_le hn0
  exact ⟨n, by omega, hn⟩

theorem dirs_get_ne_nil (k : ℕ) (hk : k < 16) :
    ∃ l, dirs.get? k = some l ∧ l ≠ [] := by
  interval_cases k <;> exact ⟨_, rfl, by decide⟩

/-- In range, `CompassDir` returns a non-empty label. -/
theorem compassDir_label {d : ℚ} (h0 : 0 ≤ d) (h360 : d ≤ 360) :
    ∃ l, CompassDir (some d) = some l ∧ l ≠ [] := by
  obtain ⟨n, _, hn⟩ := round_heading h0 h360
  obtain ⟨l, hl, hne⟩ := dirs_get_ne_nil (n % 16) (Nat.mod_lt _ (by norm_num))
  exact ⟨l, by rw [compassDir_of_round h0 hn, hl], hne⟩

theorem compassDir_350 : CompassDir (some 350) = some (go "N") := by
  have h : round ((350 : ℚ) / 22.5) = ((16 : ℕ) : ℤ) := by
    rw [round_eq]; norm_num [Int.floor_eq_iff]
  rw [compassDir_of_round (by norm_num) h]; rfl

theorem compassDir_360 : CompassDir (some 360) = some (go "N") := by
  have h : round ((360 : ℚ) / 22.5) = ((16 : ℕ) : ℤ) := by
    rw [round_eq]; norm_num [Int.floor_eq_iff]
  rw [compassDir_of_round (by norm_num) h]; rfl

theorem compassDir_170 : CompassDir (some 170) = some (go "S") := by
  have h : round ((170 : ℚ) / 22.5) = ((8 : ℕ) : ℤ) := by
    rw [round_eq]; norm_num [Int.floor_eq_iff]
  rw [compassDir_of_round (by norm_num) h]; rfl

theorem compassDir_180 : CompassDir (some 180) = some (go "S") := by
  have h : round ((180 : ℚ) / 22.5) = ((8 : ℕ) : ℤ) := by
    rw [round_eq]; norm_num [Int.floor_eq_iff]
  rw [compassDir_of_round (by norm_num) h]; rfl

/-- C1: for a present heading `d` with `0 ≤ d ≤ 360`, `CompassDir` returns the
`k`-th label of the 16-point table with `k = round (d / 22.5) mod 16`, and
that label is a nearest compass point: the distance around the circle between
`d` and `22.5 * k` is at most `11.25`. In particular 350 and 360 give "N" and
170 gives "S". -/
theorem compassDir_nearest (d : ℚ) (h0 : 0 ≤ d) (h360 : d ≤ 360) :
    (∃ (k : ℕ) (label : GoString), k < 16 ∧ (k : ℤ) = round (d / 22.5) % 16 ∧
      [go "N", go "NNE", go "NE", go "ENE", go "E", go "ESE", go "SE", go "SSE",
       go "S", go "SSW", go "SW", go "WSW", go "W", go "WNW", go "NW",
       go "NNW"].get? k = some label ∧
      CompassDir (some d) = some label ∧
      circDist d (22.5 * k) ≤ 11.25) ∧
    CompassDir (some 350) = some (go "N") ∧ CompassDir (some 360) = some (go "N") ∧
    CompassDir (some 170) = some (go "S") := by
  refine ⟨?_, compassDir_350, compassDir_360, compassDir_170⟩
  obtain ⟨n, hnle, hn⟩ := round_heading h0 h360
  have hlo : ((round (d / 22.5) : ℤ) : ℚ) ≤ d / 22.5 + 1 / 2 := by
    rw [round_eq]; exact Int.floor_le _
  have hhi : d / 22.5 + 1 / 2 < (round (d / 22.5) : ℤ) + 1 := by
    rw [round_eq]; exact Int.lt_floor_add_one _
  have hd : d / 22.5 * 22.5 = d := by norm_num
  have hC := compassDir_of_round h0 hn
  rw [hn] at hlo hhi
  have hlo2 : (n : ℚ) * 22.5 ≤ d + 11.25 := by
    have := mul_le_mul_of_nonneg_right hlo (show (0 : ℚ) ≤ 22.5 by norm_num)
    push_cast at this
    linarith
  have hhi2 : d + 11.25 < ((n : ℚ) + 1) * 22.5 := by
    have := mul_lt_mul_of_pos_right hhi (show (0 : ℚ) < 22.5 by norm_num)
    push_cast at this
    linarith
  obtain ⟨l, hl, _⟩ := dirs_get_ne_nil (n % 16) (Nat.mod_lt _ (by norm_num))
  refine ⟨n % 16, l, by omega, by rw [hn]; omega, hl, by rw [hC, hl], ?_⟩
  rcases Nat.lt_or_ge n 16 with hlt | hge
  · rw [Nat.mod_eq_of_lt hlt]
    refine le_trans (min_le_left _ _) ?_
    rw [abs_le]
    constructor <;> linarith
  · have h16 : n = 16 := by omega
    subst h16
    refine le_trans (min_le_right _ _) ?_
    norm_num at hlo2 hhi2 ⊢
    rw [abs_of_nonneg h0]
    linarith

/-- Witness for C1 at the heading 350. -/
theorem compassDir_nearest_witness :
    (0 : ℚ) ≤ 350 ∧ (350 : ℚ) ≤ 360 ∧
    ((∃ (k : ℕ) (label : GoString), k < 16 ∧ (k : ℤ) = round ((350 : ℚ) / 22.5) % 16 ∧
      [go "N", go "NNE", go "NE", go "ENE", go "E", go "ESE", go "SE", go "SSE",
       go "S", go "SSW", go "SW", go "WSW", go "W", go "WNW", go "NW",
       go "NNW"].get? k = some label ∧
      CompassDir (some 350) = some label ∧
      circDist 350 (22.5 * k) ≤ 11.25) ∧
    CompassDir (some 350) = some (go "N") ∧ CompassDir (some 360) = some (go "N") ∧
    CompassDir (some 170) = some (go "S")) :=
  ⟨by norm_num, by norm_num, compassDir_nearest 350 (by norm_num) (by norm_num)⟩

/-! ### `FormatWind` -/

theorem Join_eq_intercalate (parts : List GoString) (sep : GoString) :
    Join parts sep = sep.intercalate parts := by
  induction parts with
  | nil => rfl
  | cons a rest ih =>
    cases rest with
    | nil => simp [Join, List.intercalate]
    | cons b rest =>
      rw [Join, ih]
      simp [List.intercalate, List.intersperse]

theorem mem_Join_of_mem {parts : List GoString} {sep p : GoString} {b : UInt8}
    (hp : p ∈ parts) (hb : b ∈ p) : b ∈ Join parts sep := by
  induction parts with
  | nil => cases hp
  | cons a rest ih =>
    cases rest with
    | nil =>
      simp only [List.mem_singleton] at hp
      subst hp
      simpa [Join] using hb
    | cons c rest =>
      rw [Join]
      rcases List.mem_cons.mp hp with h | h
      · subst h; simp [hb]
      · simp [ih h]

theorem sep_mem_Join {parts : List GoString} {sep : GoString} {b : UInt8}
    (hlen : 2 ≤ parts.length) (hb : b ∈ sep) : b ∈ Join parts sep := by
  match parts, hlen with
  | a :: c :: rest, _ =>
    rw [Join]
    simp [hb]

theorem roundHalfEven_near (x : ℚ) : |((roundHalfEven x : ℤ) : ℚ) - x| ≤ 1 / 2 := by
  have h1 := Int.floor_le x
  have h2 := Int.lt_floor_add_one x
  unfold roundHalfEven
  simp only
  split_ifs <;> rw [abs_le] <;> constructor <;> push_cast <;> linarith

theorem roundHalfEven_nonneg {x : ℚ} (hx : 0 ≤ x) : 0 ≤ roundHalfEven x := by
  have h0 : (0 : ℤ) ≤ ⌊x⌋ := Int.floor_nonneg.mpr hx
  unfold roundHalfEven
  simp only
  split_ifs <;> omega

theorem roundHalfEven_eq {x : ℚ} {n : ℤ} (h : |x - n| < 1 / 2) : roundHalfEven x = n := by
  rw [abs_lt] at h
  have h1 := Int.floor_le x
  have h2 := Int.lt_floor_add_one x
  have hnear := roundHalfEven_near x
  rw [abs_le] at hnear
  have h3 : ((roundHalfEven x : ℤ) : ℚ) < (n : ℚ) + 1 := by linarith [h.1, h.2]
  have h4 : (n : ℚ) < ((roundHalfEven x : ℤ) : ℚ) + 1 := by linarith [h.1, h.2]
  have h5 : roundHalfEven x < n + 1 := by exact_mod_cast h3
  have h6 : n < roundHalfEven x + 1 := by exact_mod_cast h4
  omega

/-! ### float64 rounding -/

theorem roundFloat64_nonneg {x : ℚ} (hx : 0 ≤ x) : 0 ≤ roundFloat64 x := by
  unfold roundFloat64
  split_ifs
  · exact le_refl 0
  · simp only
    have hu : (0 : ℚ) < 2 ^ (max (Int.log 2 |x|) (-1022) - 52) := zpow_pos (by norm_num) _
    have hk := roundHalfEven_nonneg (div_nonneg hx hu.le)
    exact mul_nonneg (by exact_mod_cast hk) hu.le

/-- Evaluation of `roundFloat64`: for `2^e ≤ |x| < 2^(e+1)` in the normal range
the result is the multiple `m * 2^(e-52)` whose `m` is within a half of
`x / 2^(e-52)`. -/
theorem roundFloat64_eq {x : ℚ} (e m : ℤ) (he : -1022 ≤ e)
    (h1 : (2 : ℚ) ^ e ≤ |x|) (h2 : |x| < (2 : ℚ) ^ (e + 1))
    (hm : |x / (2 : ℚ) ^ (e - 52) - m| < 1 / 2) :
    roundFloat64 x = m * (2 : ℚ) ^ (e - 52) := by
  have hpos : (0 : ℚ) < |x| := lt_of_lt_of_le (zpow_pos (by norm_num) e) h1
  have hx : x ≠ 0 := abs_pos.mp hpos
  have hlog : Int.log 2 |x| = e := by
    have ha : e ≤ Int.log 2 |x| :=
      (Int.zpow_le_iff_le_log (b := 2) (by norm_num) hpos).mp (by exact_mod_cast h1)
    have hb : Int.log 2 |x| < e + 1 :=
      (Int.lt_zpow_iff_log_lt (b := 2) (by norm_num) hpos).mp (by exact_mod_cast h2)
    omega
  unfold roundFloat64
  simp only [if_neg hx, hlog, max_eq_left he]
  rw [roundHalfEven_eq hm]

/-- The error of rounding to float64: a relative `2^(-53)` in the normal range
and at most `2^(-1075)` below it. -/
theorem roundFloat64_near (x : ℚ) :
    |roundFloat64 x - x| ≤ |x| / 2 ^ 53 + (2 : ℚ) ^ (-1075 : ℤ) := by
  by_cases hx : x = 0
  · subst hx
    simp only [roundFloat64, if_true, sub_self, abs_zero, zero_div, zero_add]
    exact (zpow_pos (by norm_num) _).le
  have hpos : (0 : ℚ) < |x| := abs_pos.mpr hx
  unfold roundFloat64
  simp only [if_neg hx]
  set e := max (Int.log 2 |x|) (-1022) with he
  have hu : (0 : ℚ) < 2 ^ (e - 52) := zpow_pos (by norm_num) _
  have hk := roundHalfEven_near (x / 2 ^ (e - 52))
  have hrw : (roundHalfEven (x / 2 ^ (e - 52)) : ℚ) * 2 ^ (e - 52) - x =
      ((roundHalfEven (x / 2 ^ (e - 52)) : ℚ) - x / 2 ^ (e - 52)) * 2 ^ (e - 52) := by
    field_simp
  rw [hrw, abs_mul, abs_of_pos hu]
  have h1 : |(roundHalfEven (x / 2 ^ (e - 52)) : ℚ) - x / 2 ^ (e - 52)| * 2 ^ (e - 52) ≤
      1 / 2 * 2 ^ (e - 52) := mul_le_mul_of_nonneg_right hk hu.le
  have h2 : (1 / 2 : ℚ) * 2 ^ (e - 52) = 2 ^ e / 2 ^ 53 := by
    rw [zpow_sub₀ (by norm_num : (2 : ℚ) ≠ 0)]
    norm_num
    ring
  have h3 : (2 : ℚ) ^ e ≤ |x| + 2 ^ (-1022 : ℤ) := by
    rcases max_cases (Int.log 2 |x|) (-1022) with ⟨hmax, _⟩ | ⟨hmax, _⟩
    · rw [he, hmax]
      have := Int.zpow_log_le_self (b := 2) (r := |x|) (by norm_num) hpos
      have h0 : (0 : ℚ) < 2 ^ (-1022 : ℤ) := zpow_pos (by norm_num) _
      have : (2 : ℚ) ^ Int.log 2 |x| ≤ |x| := by exact_mod_cast this
      linarith
    · rw [he, hmax]
      linarith
  have h4 : (2 : ℚ) ^ (-1022 : ℤ) / 2 ^ 53 = 2 ^ (-1075 : ℤ) := by
    rw [show (-1075 : ℤ) = -1022 - 53 by norm_num, zpow_sub₀ (by norm_num : (2 : ℚ) ≠ 0)]
    norm_num
  calc |(roundHalfEven (x / 2 ^ (e - 52)) : ℚ) - x / 2 ^ (e - 52)| * 2 ^ (e - 52)
      ≤ 2 ^ e / 2 ^ 53 := by rw [← h2]; exact h1
    _ ≤ (|x| + 2 ^ (-1022 : ℤ)) / 2 ^ 53 := by
        apply div_le_div_of_nonneg_right h3 (by norm_num)
    _ = |x| / 2 ^ 53 + (2 : ℚ) ^ (-1075 : ℤ) := by rw [add_div, h4]

/-- The float64 constant of `KmhToMph`. -/
theorem kmhFactor_eq :
    roundFloat64 0.621371 = 5596812408117665 / 9007199254740992 := by
  rw [roundFloat64_eq (-1) 5596812408117665 (by norm_num)
    (by rw [abs_of_pos (by norm_num)]; norm_num)
    (by rw [abs_of_pos (by norm_num)]; norm_num)
    (by rw [abs_lt]; constructor <;> norm_num)]
  norm_num

theorem kmhToMph64_nonneg {s : ℚ} (hs : 0 ≤ s) : 0 ≤ KmhToMph64 s :=
  roundFloat64_nonneg (mul_nonneg hs (roundFloat64_nonneg (by norm_num)))

/-- The float64 product is within `s / 2^52 + 2^(-1075)` of the exact one. -/
theorem kmhToMph64_near {s : ℚ} (hs : 0 ≤ s) :
    |KmhToMph64 s - s * 0.621371| ≤ s / 2 ^ 52 + (2 : ℚ) ^ (-1075 : ℤ) := by
  have h := roundFloat64_near (s * roundFloat64 0.621371)
  rw [kmhFactor_eq] at h
  unfold KmhToMph64
  rw [kmhFactor_eq]
  have hp : |s * (5596812408117665 / 9007199254740992 : ℚ)| =
      s * (5596812408117665 / 9007199254740992) :=
    abs_of_nonneg (mul_nonneg hs (by norm_num))
  rw [hp] at h
  rw [abs_le] at h ⊢
  have e2 : (2 : ℚ) ^ 52 = 4503599627370496 := by norm_num
  have e3 : (2 : ℚ) ^ 53 = 9007199254740992 := by norm_num
  rw [e3] at h
  rw [e2]
  constructor
  · linarith [h.1]
  · linarith [h.2]

/-- On a number that is not negative `%.0f` writes, in decimal, the nearest
natural number, the even one of two. -/
theorem fmtF0_nonneg {x : ℚ} (hx : 0 ≤ x) :
    ∃ n : ℕ, (n : ℤ) = roundHalfEven x ∧ |(n : ℚ) - x| ≤ 1 / 2 ∧
      fmtF0 x = go (Nat.repr n) := by
  have h0 := roundHalfEven_nonneg hx
  refine ⟨(roundHalfEven x).toNat, Int.toNat_of_nonneg h0, ?_, ?_⟩
  · have h := roundHalfEven_near x
    have : (((roundHalfEven x).toNat : ℤ) : ℚ) = ((roundHalfEven x : ℤ) : ℚ) := by
      rw [Int.toNat_of_nonneg h0]
    rw [← this] at h
    exact_mod_cast h
  · simp [fmtF0, not_lt.mpr hx]

theorem fmtF0_eq {x : ℚ} (n : ℕ) (hx : 0 ≤ x) (h : |x - n| < 1 / 2) :
    fmtF0 x = go (Nat.repr n) := by
  have h2 : roundHalfEven x = (n : ℤ) := roundHalfEven_eq (by exact_mod_cast h)
  simp [fmtF0, not_lt.mpr hx, h2]

/-- Unfolding of `FormatWind` once the label is known. -/
theorem formatWind_unfold (dir speed gust : Option ℚ) (l : GoString)
    (hC : CompassDir dir = some l) :
    FormatWind dir speed gust =
      if speedPart speed = [] ∧ gustPart gust = [] then some (go "Calm")
      else some (Join (labelPart l speed ++ speedPart speed ++ gustPart gust) (go " ")) := by
  rcases speed with _ | s <;> rcases gust with _ | g
  · simp [FormatWind, speedPart, gustPart]
  · by_cases hg : 0 < g <;>
      simp [FormatWind, speedPart, gustPart, labelPart, hC, hg, go_empty]
  · by_cases hs : 0 < s <;>
      simp [FormatWind, speedPart, gustPart, labelPart, hC, hs, go_empty]
  · by_cases hs : 0 < s <;> by_cases hg : 0 < g <;>
      simp [FormatWind, speedPart, gustPart, labelPart, hC, hs, hg, go_empty]

theorem formatWind_calm (dir speed gust : Option ℚ)
    (h : speedPart speed = [] ∧ gustPart gust = []) :
    FormatWind dir speed gust = some (go "Calm") := by
  rcases speed with _ | s <;> rcases gust with _ | g
  · simp [FormatWind]
  · have hg : ¬ 0 < g := by
      intro hg; simp [gustPart, hg] at h
    simp [FormatWind, hg]
  · have hs : ¬ 0 < s := by
      intro hs; simp [speedPart, hs] at h
    simp [FormatWind, hs]
  · have hs : ¬ 0 < s := by
      intro hs; simp [speedPart, hs] at h
    have hg : ¬ 0 < g := by
      intro hg; simp [gustPart, hg] at h
    simp [FormatWind, hs, hg]

theorem compassDir_of_hdir (dir : Option ℚ)
    (hdir : ∀ d, dir = some d → 0 ≤ d ∧ d ≤ 360) :
    ∃ l, CompassDir dir = some l ∧ (l = [] ↔ dir = none) := by
  rcases dir with _ | d
  · exact ⟨[], rfl, by simp⟩
  · obtain ⟨l, hl, hne⟩ := compassDir_label (hdir d rfl).1 (hdir d rfl).2
    exact ⟨l, hl, by simp [hne]⟩

theorem speedPart_eq_nil_iff (speed : Option ℚ) :
    speedPart speed = [] ↔ ¬ ∃ s, speed = some s ∧ 0 < s := by
  rcases speed with _ | s
  · simp [speedPart]
  · by_cases hs : 0 < s <;> simp [speedPart, hs]

theorem gustPart_eq_nil_iff (gust : Option ℚ) :
    gustPart gust = [] ↔ ¬ ∃ g, gust = some g ∧ 0 < g := by
  rcases gust with _ | g
  · simp [gustPart]
  · by_cases hg : 0 < g <;> simp [gustPart, hg]

theorem space_mem_phrase (l : GoString) (speed gust : Option ℚ)
    (h : ¬ (speedPart speed = [] ∧ gustPart gust = [])) :
    (0x20 : UInt8) ∈ Join (labelPart l speed ++ speedPart speed ++ gustPart gust) (go " ") := by
  by_cases hs : speedPart speed = []
  · have hg : gustPart gust ≠ [] := fun hg => h ⟨hs, hg⟩
    rcases gust with _ | g
    · simp [gustPart] at hg
    · by_cases hpos : 0 < g
      · refine mem_Join_of_mem (p := go "G " ++ fmtF0 (KmhToMph64 g)) ?_ ?_
        · simp [gustPart, hpos]
        · exact List.mem_append_left _ (by decide)
      · simp [gustPart, hpos] at hg
  · refine sep_mem_Join ?_ (by decide)
    have h1 : 1 ≤ (labelPart l speed).length := by
      unfold labelPart
      split_ifs <;> simp
    have h2 : 1 ≤ (speedPart speed).length := by
      rcases hsp : speedPart speed with _ | ⟨a, t⟩
      · exact absurd hsp hs
      · simp
    simp only [List.length_append]
    omega

/-- Evaluation of the float64 product at a speed `s`: `e` is its binary
exponent and `m` its 53-bit significand. -/
theorem kmhToMph64_eq (s : ℚ) (e m : ℤ) (he : -1022 ≤ e) (hs : 0 ≤ s)
    (h1 : (2 : ℚ) ^ e ≤ s * (5596812408117665 / 9007199254740992))
    (h2 : s * (5596812408117665 / 9007199254740992) < (2 : ℚ) ^ (e + 1))
    (hm : |s * (5596812408117665 / 9007199254740992) / (2 : ℚ) ^ (e - 52) - m| < 1 / 2) :
    KmhToMph64 s = m * (2 : ℚ) ^ (e - 52) := by
  have hp : |s * (5596812408117665 / 9007199254740992 : ℚ)| =
      s * (5596812408117665 / 9007199254740992) :=
    abs_of_nonneg (mul_nonneg hs (by norm_num))
  unfold KmhToMph64
  rw [kmhFactor_eq]
  exact roundFloat64_eq e m he (by rw [hp]; exact h1) (by rw [hp]; exact h2) hm

theorem fmtF0_kmh64 (s : ℚ) (n : ℕ) (e m : ℤ) (he : -1022 ≤ e) (hs : 0 ≤ s)
    (h1 : (2 : ℚ) ^ e ≤ s * (5596812408117665 / 9007199254740992))
    (h2 : s * (5596812408117665 / 9007199254740992) < (2 : ℚ) ^ (e + 1))
    (hm : |s * (5596812408117665 / 9007199254740992) / (2 : ℚ) ^ (e - 52) - m| < 1 / 2)
    (hn : |(m : ℚ) * (2 : ℚ) ^ (e - 52) - n| < 1 / 2) :
    fmtF0 (KmhToMph64 s) = go (Nat.repr n) := by
  have hk := kmhToMph64_eq s e m he hs h1 h2 hm
  have h0 := kmhToMph64_nonneg hs
  rw [hk] at h0 ⊢
  exact fmtF0_eq n h0 hn

theorem fmtF0_kmh64_20 : fmtF0 (KmhToMph64 20) = go (Nat.repr 12) :=
  fmtF0_kmh64 20 12 3 6996015510147081 (by norm_num) (by norm_num) (by norm_num)
    (by norm_num) (by rw [abs_lt]; constructor <;> norm_num)
    (by rw [abs_lt]; constructor <;> norm_num)

theorem fmtF0_kmh64_40 : fmtF0 (KmhToMph64 40) = go (Nat.repr 25) :=
  fmtF0_kmh64 40 25 4 6996015510147081 (by norm_num) (by norm_num) (by norm_num)
    (by norm_num) (by rw [abs_lt]; constructor <;> norm_num)
    (by rw [abs_lt]; constructor <;> norm_num)

theorem fmtF0_kmh64_63 : fmtF0 (KmhToMph64 63) = go (Nat.repr 39) :=
  fmtF0_kmh64 63 39 5 5509362214240826 (by norm_num) (by norm_num) (by norm_num)
    (by norm_num) (by rw [abs_lt]; constructor <;> norm_num)
    (by rw [abs_lt]; constructor <;> norm_num)

theorem fmtF0_kmh64_10 : fmtF0 (KmhToMph64 10) = go (Nat.repr 6) :=
  fmtF0_kmh64 10 6 2 6996015510147081 (by norm_num) (by norm_num) (by norm_num)
    (by norm_num) (by rw [abs_lt]; constructor <;> norm_num)
    (by rw [abs_lt]; constructor <;> norm_num)

theorem fmtF0_kmh64_30 : fmtF0 (KmhToMph64 30) = go (Nat.repr 19) :=
  fmtF0_kmh64 30 19 4 5247011632610311 (by norm_num) (by norm_num) (by norm_num)
    (by norm_num) (by rw [abs_lt]; constructor <;> norm_num)
    (by rw [abs_lt]; constructor <;> norm_num)

/-- C2: with the direction absent or in `[0, 360]`, `FormatWind` returns a
string, and that string is "Calm" exactly when the speed is absent or not
positive and the gust is absent or not positive. In particular a reading with
neither speed nor gust gives "Calm", and no other phrase equals "Calm". -/
theorem formatWind_calm_iff (dir speed gust : Option ℚ)
    (hdir : ∀ d, dir = some d → 0 ≤ d ∧ d ≤ 360) :
    (∃ r, FormatWind dir speed gust = some r ∧
      (r = go "Calm" ↔
        (speed = none ∨ ∃ s, speed = some s ∧ s ≤ 0) ∧
        (gust = none ∨ ∃ g, gust = some g ∧ g ≤ 0))) ∧
    (speed = none → gust = none → FormatWind dir speed gust = some (go "Calm")) := by
  obtain ⟨l, hl, _⟩ := compassDir_of_hdir dir hdir
  have hS : speedPart speed = [] ↔ (speed = none ∨ ∃ s, speed = some s ∧ s ≤ 0) := by
    rcases speed with _ | s
    · simp [speedPart]
    · by_cases hs : 0 < s
      · simp [speedPart, hs]
      · simp [speedPart, hs, not_lt.mp hs]
  have hG : gustPart gust = [] ↔ (gust = none ∨ ∃ g, gust = some g ∧ g ≤ 0) := by
    rcases gust with _ | g
    · simp [gustPart]
    · by_cases hg : 0 < g
      · simp [gustPart, hg]
      · simp [gustPart, hg, not_lt.mp hg]
  constructor
  · by_cases hcalm : speedPart speed = [] ∧ gustPart gust = []
    · refine ⟨go "Calm", formatWind_calm dir speed gust hcalm, ?_⟩
      simp only [true_iff]
      exact ⟨hS.mp hcalm.1, hG.mp hcalm.2⟩
    · refine ⟨_, by rw [formatWind_unfold dir speed gust l hl, if_neg hcalm], ?_⟩
      constructor
      · intro heq
        have hmem := space_mem_phrase l speed gust hcalm
        rw [heq] at hmem
        exact absurd hmem (by decide)
      · rintro ⟨h1, h2⟩
        exact absurd ⟨hS.mpr h1, hG.mpr h2⟩ hcalm
  · rintro rfl rfl
    rfl

/-- Witness for C2 at direction 180, speed 20, gust 40. -/
theorem formatWind_calm_iff_witness :
    (∀ d : ℚ, some (180 : ℚ) = some d → 0 ≤ d ∧ d ≤ 360) ∧
    ((∃ r, FormatWind (some 180) (some 20) (some 40) = some r ∧
      (r = go "Calm" ↔
        ((some (20 : ℚ)) = none ∨ ∃ s, some (20 : ℚ) = some s ∧ s ≤ 0) ∧
        ((some (40 : ℚ)) = none ∨ ∃ g, some (40 : ℚ) = some g ∧ g ≤ 0))) ∧
    (some (20 : ℚ) = none → some (40 : ℚ) = none →
      FormatWind (some 180) (some 20) (some 40) = some (go "Calm"))) :=
  have h : ∀ d : ℚ, some (180 : ℚ) = some d → 0 ≤ d ∧ d ≤ 360 := by
    intro d hd
    cases hd
    constructor <;> norm_num
  ⟨h, formatWind_calm_iff (some 180) (some 20) (some 40) h⟩

theorem formatWind_ex1 :
    FormatWind (some 180) (some 20) (some 40) = some (go "S 12 G 25") := by
  have e1 := fmtF0_kmh64_20
  have e2 := fmtF0_kmh64_40
  rw [formatWind_unfold _ _ _ _ compassDir_180]
  have hs : speedPart (some 20) = [go (Nat.repr 12)] := by
    simp only [speedPart, e1]; norm_num
  have hg : gustPart (some 40) = [go "G " ++ go (Nat.repr 25)] := by
    simp only [gustPart, e2]; norm_num
  have hl : labelPart (go "S") (some 20) = [go "S"] := by
    unfold labelPart; rw [if_pos (by decide)]
  rw [hs, hg, hl]
  decide

theorem formatWind_ex2 : FormatWind none none (some 63) = some (go "G 39") := by
  have e2 := fmtF0_kmh64_63
  rw [formatWind_unfold none none (some 63) (go "") rfl]
  have hg : gustPart (some 63) = [go "G " ++ go (Nat.repr 39)] := by
    simp only [gustPart, e2]; norm_num
  rw [hg]
  decide

theorem formatWind_ex3 :
    FormatWind none (some 10) (some 30) = some (go "Vrbl 6 G 19") := by
  have e1 := fmtF0_kmh64_10
  have e2 := fmtF0_kmh64_30
  rw [formatWind_unfold none (some 10) (some 30) (go "") rfl]
  have hs : speedPart (some 10) = [go (Nat.repr 6)] := by
    simp only [speedPart, e1]; norm_num
  have hg : gustPart (some 30) = [go "G " ++ go (Nat.repr 19)] := by
    simp only [gustPart, e2]; norm_num
  have hl : labelPart (go "") (some 10) = [go "Vrbl"] := by
    unfold labelPart; rw [if_neg (by decide), hs, if_pos (by simp)]
  rw [hs, hg, hl]
  decide

theorem formatWind_nonpos_speed (dir gust : Option ℚ) (s : ℚ) (hs : s ≤ 0) :
    FormatWind dir (some s) gust = FormatWind dir none gust := by
  have h : ¬ 0 < s := not_lt.mpr hs
  simp [FormatWind, h]

theorem sampleSpeed_eq : sampleSpeed = 6341862870892243 / 1125899906842624 := by
  unfold sampleSpeed
  rw [roundFloat64_eq 2 6341862870892243 (by norm_num)
    (by rw [abs_of_pos (by norm_num)]; norm_num)
    (by rw [abs_of_pos (by norm_num)]; norm_num)
    (by rw [abs_lt]; constructor <;> norm_num)]
  norm_num

/-- At the sample speed the float64 product is exactly `3.5`. -/
theorem kmhToMph64_sampleSpeed : KmhToMph64 sampleSpeed = 7 / 2 := by
  rw [sampleSpeed_eq, kmhToMph64_eq _ 1 7881299347898368 (by norm_num) (by norm_num)
    (by norm_num) (by norm_num) (by rw [abs_lt]; constructor <;> norm_num)]
  norm_num

theorem fmtF0_seven_halves : fmtF0 (7 / 2) = go "4" := by
  have hf : ⌊(7 / 2 : ℚ)⌋ = 3 := by
    rw [Int.floor_eq_iff]; constructor <;> norm_num
  have hr : roundHalfEven (7 / 2) = 4 := by
    unfold roundHalfEven
    simp only [hf]
    norm_num
  have hneg : ¬ ((7 / 2 : ℚ) < 0) := by norm_num
  simp only [fmtF0, hneg, if_false, hr]
  decide

/-- C3, counterexample: at the float64 speed nearest to `5.632705742623972`,
with no direction and no gust, the float64 product is exactly `3.5` and the
phrase is "Vrbl 4"; yet `3`, not `4`, is the integer nearest to the exact
product `speed * 0.621371`, which lies just below `3.5`. -/
theorem formatWind_not_nearest_exact :
    FormatWind none (some sampleSpeed) none = some (go "Vrbl 4") ∧
    ¬ (|(4 : ℚ) - sampleSpeed * 0.621371| ≤ 1 / 2) ∧
    |(3 : ℚ) - sampleSpeed * 0.621371| < 1 / 2 := by
  refine ⟨?_, ?_, ?_⟩
  · have hpos : (0 : ℚ) < sampleSpeed := by rw [sampleSpeed_eq]; norm_num
    rw [formatWind_unfold none (some sampleSpeed) none (go "") rfl]
    have hs : speedPart (some sampleSpeed) = [go "4"] := by
      simp only [speedPart, hpos, if_true, kmhToMph64_sampleSpeed, fmtF0_seven_halves]
    have hl : labelPart (go "") (some sampleSpeed) = [go "Vrbl"] := by
      unfold labelPart; rw [if_neg (by decide), hs, if_pos (by simp)]
    have hg : gustPart none = [] := rfl
    rw [hs, hl, hg]
    decide
  · rw [sampleSpeed_eq, abs_le]
    norm_num
  · rw [sampleSpeed_eq, abs_lt]
    constructor <;> norm_num

/-- C3, amended: for a non-calm input (speed or gust positive) with the
direction absent or in `[0, 360]`, `FormatWind` returns the single-space join
of, in this order: the compass label when the direction is present, otherwise
"Vrbl" when the speed is positive and nothing when only the gust is; then, for
a positive speed, the integer nearest (halves to the even one) to the float64
product that `KmhToMph` returns, in decimal digits; then, for a positive gust,
"G " and the integer nearest to the float64 product for the gust. The float64
product is within `v / 2^52 + 2^(-1075)` of the exact `v * 0.621371`. A speed
that is zero or negative is treated like an absent speed. (180, 20, 40) gives
"S 12 G 25", (absent, absent, 63) gives "G 39", (absent, 10, 30) gives
"Vrbl 6 G 19". -/
theorem formatWind_phrase_float64 (dir speed gust : Option ℚ)
    (hdir : ∀ d, dir = some d → 0 ≤ d ∧ d ≤ 360)
    (hnc : (∃ s, speed = some s ∧ 0 < s) ∨ (∃ g, gust = some g ∧ 0 < g)) :
    (∃ lbl spd gst : List GoString,
      FormatWind dir speed gust = some ((go " ").intercalate (lbl ++ spd ++ gst)) ∧
      (∀ d, dir = some d → ∃ l, l ≠ go "" ∧ CompassDir (some d) = some l ∧ lbl = [l]) ∧
      (dir = none → (∃ s, speed = some s ∧ 0 < s) → lbl = [go "Vrbl"]) ∧
      (dir = none → (¬ ∃ s, speed = some s ∧ 0 < s) → lbl = []) ∧
      (∀ s, speed = some s → 0 < s →
        ∃ n : ℕ, (n : ℤ) = roundHalfEven (KmhToMph64 s) ∧
          |(n : ℚ) - KmhToMph64 s| ≤ 1 / 2 ∧
          |KmhToMph64 s - s * 0.621371| ≤ s / 2 ^ 52 + (2 : ℚ) ^ (-1075 : ℤ) ∧
          spd = [go (Nat.repr n)]) ∧
      ((¬ ∃ s, speed = some s ∧ 0 < s) → spd = []) ∧
      (∀ g, gust = some g → 0 < g →
        ∃ n : ℕ, (n : ℤ) = roundHalfEven (KmhToMph64 g) ∧
          |(n : ℚ) - KmhToMph64 g| ≤ 1 / 2 ∧
          |KmhToMph64 g - g * 0.621371| ≤ g / 2 ^ 52 + (2 : ℚ) ^ (-1075 : ℤ) ∧
          gst = [go "G " ++ go (Nat.repr n)]) ∧
      ((¬ ∃ g, gust = some g ∧ 0 < g) → gst = [])) ∧
    (∀ s : ℚ, s ≤ 0 → FormatWind dir (some s) gust = FormatWind dir none gust) ∧
    FormatWind (some 180) (some 20) (some 40) = some (go "S 12 G 25") ∧
    FormatWind none none (some 63) = some (go "G 39") ∧
    FormatWind none (some 10) (some 30) = some (go "Vrbl 6 G 19") := by
  refine ⟨?_, fun s hs => formatWind_nonpos_speed dir gust s hs,
    formatWind_ex1, formatWind_ex2, formatWind_ex3⟩
  obtain ⟨l, hl, hlnil⟩ := compassDir_of_hdir dir hdir
  have hcalm : ¬ (speedPart speed = [] ∧ gustPart gust = []) := by
    rintro ⟨h1, h2⟩
    rcases hnc with h | h
    · exact (speedPart_eq_nil_iff speed).mp h1 h
    · exact (gustPart_eq_nil_iff gust).mp h2 h
  refine ⟨labelPart l speed, speedPart speed, gustPart gust, ?_, ?_, ?_, ?_, ?_, ?_, ?_, ?_⟩
  · rw [formatWind_unfold dir speed gust l hl, if_neg hcalm, Join_eq_intercalate]
  · intro d hd
    have hne : l ≠ [] := fun h => by
      have := hlnil.mp h
      rw [hd] at this
      cases this
    refine ⟨l, by simpa [go_empty] using hne, by rw [← hd, hl], ?_⟩
    simp [labelPart, hne]
  · intro hd hs
    have hl0 : l = [] := hlnil.mpr hd
    have hsp : speedPart speed ≠ [] := fun h => (speedPart_eq_nil_iff speed).mp h hs
    simp [labelPart, hl0, hsp]
  · intro hd hs
    have hl0 : l = [] := hlnil.mpr hd
    have hsp : speedPart speed = [] := (speedPart_eq_nil_iff speed).mpr hs
    simp [labelPart, hl0, hsp]
  · intro s hs hpos
    subst hs
    obtain ⟨n, hn1, hn2, hfmt⟩ := fmtF0_nonneg (kmhToMph64_nonneg hpos.le)
    exact ⟨n, hn1, hn2, kmhToMph64_near hpos.le, by simp [speedPart, hpos, hfmt]⟩
  · exact fun h => (speedPart_eq_nil_iff speed).mpr h
  · intro g hg hpos
    subst hg
    obtain ⟨n, hn1, hn2, hfmt⟩ := fmtF0_nonneg (kmhToMph64_nonneg hpos.le)
    exact ⟨n, hn1, hn2, kmhToMph64_near hpos.le, by simp [gustPart, hpos, hfmt]⟩
  · exact fun h => (gustPart_eq_nil_iff gust).mpr h

/-- Witness for C3 at direction 180, speed 20, gust 40. -/
theorem formatWind_phrase_float64_witness :
    (∀ d : ℚ, some (180 : ℚ) = some d → 0 ≤ d ∧ d ≤ 360) ∧
    ((∃ s, some (20 : ℚ) = some s ∧ 0 < s) ∨ (∃ g, some (40 : ℚ) = some g ∧ 0 < g)) ∧
    FormatWind (some 180) (some 20) (some 40) = some (go "S 12 G 25") :=
  have h : ∀ d : ℚ, some (180 : ℚ) = some d → 0 ≤ d ∧ d ≤ 360 := by
    intro d hd
    cases hd
    constructor <;> norm_num
  have hnc : (∃ s, some (20 : ℚ) = some s ∧ 0 < s) ∨ (∃ g, some (40 : ℚ) = some g ∧ 0 < g) :=
    Or.inl ⟨20, rfl, by norm_num⟩
  ⟨h, hnc, (formatWind_phrase_float64 (some 180) (some 20) (some 40) h hnc).2.2.1⟩

/-! ### UTF-8 decoding and `strings.Fields` -/

theorem secondLo_ge (x : ℕ) : 0x80 ≤ secondLo x := by
  unfold secondLo; split_ifs <;> omega

theorem isCont_ge {y : ℕ} (h : isCont y = true) : 0x80 ≤ y := by
  simp [isCont] at h; exact h.1

/-- Shape of a decoding step: one byte (an ASCII byte standing for itself, or
an ill-formed byte), or a sequence of two to four bytes all at least `0x80`. -/
theorem decodeRune_cases (b0 : UInt8) (rest : GoString) :
    ((decodeRune (b0 :: rest)).2 = 1 ∧
      (((decodeRune (b0 :: rest)).1 = b0.toNat ∧ b0.toNat < 0x80) ∨
       ((decodeRune (b0 :: rest)).1 = 0xFFFD ∧ 0x80 ≤ b0.toNat))) ∨
    (0x80 ≤ b0.toNat ∧ ∃ b1 t1, rest = b1 :: t1 ∧ 0x80 ≤ b1.toNat ∧
      ((decodeRune (b0 :: rest)).2 = 2 ∨
        ∃ b2 t2, t1 = b2 :: t2 ∧ 0x80 ≤ b2.toNat ∧
          ((decodeRune (b0 :: rest)).2 = 3 ∨
            ∃ b3 t3, t2 = b3 :: t3 ∧ 0x80 ≤ b3.toNat ∧
              (decodeRune (b0 :: rest)).2 = 4))) := by
  by_cases h1 : b0.toNat < 0x80
  · left
    simp [decodeRune, h1]
  have h1' : 0x80 ≤ b0.toNat := by omega
  by_cases h2 : 0xC2 ≤ b0.toNat ∧ b0.toNat ≤ 0xDF
  · rcases rest with _ | ⟨b1, t1⟩
    · left; simp [decodeRune, h1, h2, h1']
    · by_cases hc : isCont b1.toNat = true
      · right
        exact ⟨h1', b1, t1, rfl, isCont_ge hc, Or.inl (by simp [decodeRune, h1, h2, hc])⟩
      · left; simp [decodeRune, h1, h2, hc, h1']
  by_cases h3 : 0xE0 ≤ b0.toNat ∧ b0.toNat ≤ 0xEF
  · rcases rest with _ | ⟨b1, _ | ⟨b2, t2⟩⟩
    · left; simp [decodeRune, h1, h2, h3, h1']
    · left; simp [decodeRune, h1, h2, h3, h1']
    · by_cases hc : secondLo b0.toNat ≤ b1.toNat ∧ b1.toNat ≤ secondHi b0.toNat ∧
          isCont b2.toNat = true
      · right
        have := secondLo_ge b0.toNat
        exact ⟨h1', b1, _, rfl, by omega, Or.inr ⟨b2, t2, rfl, isCont_ge hc.2.2,
          Or.inl (by simp [decodeRune, h1, h2, h3, hc])⟩⟩
      · left; simp [decodeRune, h1, h2, h3, hc, h1']
  by_cases h4 : 0xF0 ≤ b0.toNat ∧ b0.toNat ≤ 0xF4
  · rcases rest with _ | ⟨b1, _ | ⟨b2, _ | ⟨b3, t3⟩⟩⟩
    · left; simp [decodeRune, h1, h2, h3, h4, h1']
    · left; simp [decodeRune, h1, h2, h3, h4, h1']
    · left; simp [decodeRune, h1, h2, h3, h4, h1']
    · by_cases hc : secondLo b0.toNat ≤ b1.toNat ∧ b1.toNat ≤ secondHi b0.toNat ∧
          isCont b2.toNat = true ∧ isCont b3.toNat = true
      · right
        have := secondLo_ge b0.toNat
        exact ⟨h1', b1, _, rfl, by omega, Or.inr ⟨b2, _, rfl, isCont_ge hc.2.2.1,
          Or.inr ⟨b3, t3, rfl, isCont_ge hc.2.2.2, by simp [decodeRune, h1, h2, h3, h4, hc]⟩⟩⟩
      · left; simp [decodeRune, h1, h2, h3, h4, hc, h1']
  · left; simp [decodeRune, h1, h2, h3, h4, h1']

theorem ne_space_of_high {b : UInt8} (hb : 0x80 ≤ b.toNat) : (0x20 : UInt8) ≠ b := by
  intro hEq
  rw [← hEq] at hb
  revert hb
  decide

/-- A space byte is never part of a rune that is not white space. -/
theorem decodeRune_space (b0 : UInt8) (rest : GoString)
    (h : (0x20 : UInt8) ∈ (b0 :: rest).take (decodeRune (b0 :: rest)).2) :
    (decodeRune (b0 :: rest)).1 = 0x20 := by
  rcases decodeRune_cases b0 rest with ⟨hw, hr | hr⟩ |
      ⟨h0, b1, t1, rfl, h1, hw | ⟨b2, t2, rfl, h2, hw | ⟨b3, t3, rfl, h3, hw⟩⟩⟩
  · rw [hw] at h
    simp only [List.take_succ_cons, List.take_zero, List.mem_singleton] at h
    rw [hr.1, ← h]; rfl
  · rw [hw] at h
    simp only [List.take_succ_cons, List.take_zero, List.mem_singleton] at h
    exact absurd h (ne_space_of_high hr.2)
  · rw [hw] at h
    simp only [List.take_succ_cons, List.take_zero, List.mem_cons, List.mem_singleton,
      List.not_mem_nil, or_false] at h
    rcases h with h | h
    · exact absurd h (ne_space_of_high h0)
    · exact absurd h (ne_space_of_high h1)
  · rw [hw] at h
    simp only [List.take_succ_cons, List.take_zero, List.mem_cons, List.mem_singleton,
      List.not_mem_nil, or_false] at h
    rcases h with h | h | h
    · exact absurd h (ne_space_of_high h0)
    · exact absurd h (ne_space_of_high h1)
    · exact absurd h (ne_space_of_high h2)
  · rw [hw] at h
    simp only [List.take_succ_cons, List.take_zero, List.mem_cons, List.mem_singleton,
      List.not_mem_nil, or_false] at h
    rcases h with h | h | h | h
    · exact absurd h (ne_space_of_high h0)
    · exact absurd h (ne_space_of_high h1)
    · exact absurd h (ne_space_of_high h2)
    · exact absurd h (ne_space_of_high h3)

theorem rangeRunes_space (fuel : ℕ) (s : GoString) :
    ∀ rb ∈ rangeRunes fuel s, IsSpace rb.1 = false → (0x20 : UInt8) ∉ rb.2 := by
  induction fuel generalizing s with
  | zero => intro rb h; simp [rangeRunes] at h
  | succ n ih =>
    rcases s with _ | ⟨b, rest⟩
    · intro rb h; simp [rangeRunes] at h
    · intro rb h hsp hmem
      simp only [rangeRunes, List.mem_cons] at h
      rcases h with h | h
      · subst h
        have := decodeRune_space b rest hmem
        simp only at hsp
        rw [this] at hsp
        exact absurd hsp (by decide)
      · exact ih _ rb h hsp hmem

theorem decodeRune_width_pos (b0 : UInt8) (rest : GoString) :
    1 ≤ (decodeRune (b0 :: rest)).2 := by
  rcases decodeRune_cases b0 rest with h | ⟨_, b1, t1, _, _, h | ⟨b2, t2, _, _, h | ⟨b3, t3, _, _, h⟩⟩⟩ <;>
    omega

/-- The iteration does not run out of steps: with at least `s.length` of them
the decoded pieces, put back together, are the whole of `s`. -/
theorem rangeRunes_covers (fuel : ℕ) (s : GoString) (h : s.length ≤ fuel) :
    (rangeRunes fuel s).flatMap (fun rb => rb.2) = s := by
  induction fuel generalizing s with
  | zero =>
    have : s = [] := List.length_eq_zero.mp (by omega)
    subst this
    rfl
  | succ n ih =>
    rcases s with _ | ⟨b, rest⟩
    · rfl
    · have hw := decodeRune_width_pos b rest
      have hlen : ((b :: rest).drop (decodeRune (b :: rest)).2).length ≤ n := by
        rw [List.length_drop]
        simp only [List.length_cons] at h ⊢
        omega
      simp only [rangeRunes, List.flatMap_cons]
      rw [ih _ hlen, List.take_append_drop]

theorem fieldsLoop_words (l : List (ℕ × GoString)) (cur : GoString)
    (hl : ∀ rb ∈ l, IsSpace rb.1 = false → (0x20 : UInt8) ∉ rb.2)
    (hcur : (0x20 : UInt8) ∉ cur) :
    ∀ w ∈ fieldsLoop l cur, w ≠ [] ∧ (0x20 : UInt8) ∉ w := by
  induction l generalizing cur with
  | nil =>
    intro w hw
    by_cases hc : cur = []
    · simp [fieldsLoop, hc] at hw
    · simp only [fieldsLoop, hc, if_false, List.mem_singleton] at hw
      subst hw
      exact ⟨hc, hcur⟩
  | cons rb rest ih =>
    obtain ⟨r, bs⟩ := rb
    have hrest : ∀ rb ∈ rest, IsSpace rb.1 = false → (0x20 : UInt8) ∉ rb.2 :=
      fun rb h => hl rb (List.mem_cons_of_mem _ h)
    intro w hw
    by_cases hsp : IsSpace r = true
    · by_cases hc : cur = []
      · simp only [fieldsLoop, hsp, hc, if_true] at hw
        exact ih [] hrest (by simp) w hw
      · simp only [fieldsLoop, hsp, hc, if_true, if_false, List.mem_cons] at hw
        rcases hw with hw | hw
        · subst hw; exact ⟨hc, hcur⟩
        · exact ih [] hrest (by simp) w hw
    · simp only [fieldsLoop, hsp, if_false] at hw
      have hbs : (0x20 : UInt8) ∉ bs :=
        hl (r, bs) (List.mem_cons_self _ _) (by simpa using hsp)
      exact ih (cur ++ bs) hrest (by simp [hcur, hbs]) w hw

/-- Every word of `strings.Fields` is non-empty and holds no space byte. -/
theorem Fields_words (s : GoString) :
    ∀ w ∈ Fields s, w ≠ [] ∧ (0x20 : UInt8) ∉ w :=
  fieldsLoop_words _ [] (rangeRunes_space _ s) (by simp)

/-! ### `WordWrap` -/

theorem intercalate_single (sep w : GoString) : sep.intercalate [w] = w := by
  simp [List.intercalate]

theorem intercalate_cons_cons (sep a b : GoString) (t : List GoString) :
    sep.intercalate (a :: b :: t) = a ++ (sep ++ sep.intercalate (b :: t)) := by
  simp [List.intercalate, List.intersperse]

theorem intercalate_append_singleton (sep : GoString) (g : List GoString) (w : GoString)
    (hg : g ≠ []) : sep.intercalate (g ++ [w]) = sep.intercalate g ++ (sep ++ w) := by
  induction g with
  | nil => exact absurd rfl hg
  | cons a t ih =>
    cases t with
    | nil =>
      rw [List.singleton_append, intercalate_cons_cons, intercalate_single, intercalate_single]
    | cons b t =>
      have h := ih (by simp)
      rw [List.cons_append, List.cons_append, intercalate_cons_cons, ← List.cons_append, h,
        intercalate_cons_cons]
      simp only [List.append_assoc]

theorem foldl_wrapStep (width : ℤ) (ws : List GoString) (lines : List GoString)
    (g : List GoString) (hg : g ≠ []) :
    (ws.foldl (wrapStep width) (lines, ([0x20] : GoString).intercalate g)).1 ++
      [(ws.foldl (wrapStep width) (lines, ([0x20] : GoString).intercalate g)).2] =
    lines ++ (wrapGroups width g ws).map (([0x20] : GoString).intercalate) := by
  induction ws generalizing lines g with
  | nil => simp [wrapGroups]
  | cons w ws ih =>
    by_cases hbrk : ((([0x20] : GoString).intercalate g).length : ℤ) + 1 + (w.length : ℤ) > width
    · have hstep : wrapStep width (lines, ([0x20] : GoString).intercalate g) w =
          (lines ++ [([0x20] : GoString).intercalate g], ([0x20] : GoString).intercalate [w]) := by
        simp only [wrapStep]
        rw [if_pos hbrk, intercalate_single]
      rw [List.foldl_cons, hstep, ih _ [w] (by simp)]
      rw [wrapGroups, if_pos hbrk]
      simp
    · have hstep : wrapStep width (lines, ([0x20] : GoString).intercalate g) w =
          (lines, ([0x20] : GoString).intercalate (g ++ [w])) := by
        rw [intercalate_append_singleton _ _ _ hg]
        simp only [wrapStep]
        rw [if_neg hbrk, go_space]
      rw [List.foldl_cons, hstep, ih _ (g ++ [w]) (by simp)]
      rw [wrapGroups, if_neg hbrk]

/-- The lines of `WordWrap` are the single-space joins of the greedy groups. -/
theorem wordWrap_eq_groups (s : GoString) (width : ℤ) :
    WordWrap s width =
      match Fields s with
      | [] => []
      | w0 :: rest => (wrapGroups width [w0] rest).map (([0x20] : GoString).intercalate) := by
  unfold WordWrap
  rcases Fields s with _ | ⟨w0, rest⟩
  · rfl
  · have := foldl_wrapStep width rest [] [w0] (by simp)
    rw [intercalate_single] at this
    simpa using this

theorem wrapGroups_flatten (width : ℤ) (ws cur : List GoString) :
    (wrapGroups width cur ws).flatten = cur ++ ws := by
  induction ws generalizing cur with
  | nil => simp [wrapGroups]
  | cons w ws ih =>
    unfold wrapGroups
    split_ifs
    · simp [ih]
    · simp [ih]

theorem wrapGroups_ne_nil (width : ℤ) (ws cur : List GoString) (hcur : cur ≠ []) :
    ∀ g ∈ wrapGroups width cur ws, g ≠ [] := by
  induction ws generalizing cur with
  | nil => intro g hg; simp [wrapGroups] at hg; simpa [hg] using hcur
  | cons w ws ih =>
    intro g hg
    unfold wrapGroups at hg
    split_ifs at hg
    · rcases List.mem_cons.mp hg with h | h
      · simpa [h] using hcur
      · exact ih [w] (by simp) g h
    · exact ih (cur ++ [w]) (by simp) g hg

theorem wrapGroups_fits (width : ℤ) (ws cur : List GoString) (hne : cur ≠ [])
    (hcur : 2 ≤ cur.length → ((([0x20] : GoString).intercalate cur).length : ℤ) ≤ width) :
    ∀ g ∈ wrapGroups width cur ws, 2 ≤ g.length →
      ((([0x20] : GoString).intercalate g).length : ℤ) ≤ width := by
  induction ws generalizing cur with
  | nil => intro g hg; simp [wrapGroups] at hg; subst hg; exact hcur
  | cons w ws ih =>
    intro g hg
    unfold wrapGroups at hg
    split_ifs at hg with hbrk
    · rcases List.mem_cons.mp hg with h | h
      · subst h; exact hcur
      · exact ih [w] (by simp) (by simp) g h
    · refine ih (cur ++ [w]) (by simp) ?_ g hg
      intro _
      rw [intercalate_append_singleton _ _ _ hne]
      simp only [List.length_append, List.length_singleton, List.length_cons, List.length_nil]
      push_cast
      omega

theorem wrapGroups_head (width : ℤ) (ws cur : List GoString) (hcur : cur ≠ []) :
    ∃ g rest, wrapGroups width cur ws = g :: rest ∧ g.head? = cur.head? := by
  induction ws generalizing cur with
  | nil => exact ⟨cur, [], by simp [wrapGroups], rfl⟩
  | cons w ws ih =>
    by_cases hbrk : ((([0x20] : GoString).intercalate cur).length : ℤ) + 1 + (w.length : ℤ) > width
    · exact ⟨cur, _, by rw [wrapGroups, if_pos hbrk], rfl⟩
    · obtain ⟨g, rest, h1, h2⟩ := ih (cur ++ [w]) (by simp)
      refine ⟨g, rest, by rw [wrapGroups, if_neg hbrk, h1], ?_⟩
      rw [h2]
      cases cur with
      | nil => exact absurd rfl hcur
      | cons a t => rfl

/-- A group is closed only when the next word does not fit after it. -/
theorem wrapGroups_chain (width : ℤ) (ws cur : List GoString) (hcur : cur ≠ []) :
    List.Chain' (fun g h => ∀ w ∈ h.head?,
      ((([0x20] : GoString).intercalate g).length : ℤ) + 1 + (w.length : ℤ) > width)
      (wrapGroups width cur ws) := by
  induction ws generalizing cur with
  | nil => simp [wrapGroups]
  | cons w ws ih =>
    by_cases hbrk : ((([0x20] : GoString).intercalate cur).length : ℤ) + 1 + (w.length : ℤ) > width
    · rw [wrapGroups, if_pos hbrk, List.chain'_cons']
      refine ⟨?_, ih [w] (by simp)⟩
      intro y hy w' hw'
      obtain ⟨g, rest, h1, h2⟩ := wrapGroups_head width ws [w] (by simp)
      rw [h1] at hy
      simp only [List.head?_cons, Option.mem_def, Option.some.injEq] at hy
      subst hy
      rw [h2] at hw'
      simp only [List.head?_cons, Option.mem_def, Option.some.injEq] at hw'
      subst hw'
      exact hbrk
    · rw [wrapGroups, if_neg hbrk]
      exact ih (cur ++ [w]) (by simp)

theorem head_length_le_intercalate (sep a : GoString) (t : List GoString) :
    a.length ≤ (sep.intercalate (a :: t)).length := by
  cases t with
  | nil => rw [intercalate_single]
  | cons b t => rw [intercalate_cons_cons]; simp

theorem tail_length_lt_intercalate (g : List GoString) :
    ∀ w ∈ g.tail, w.length + 1 ≤ ((([0x20] : GoString).intercalate g).length) := by
  induction g with
  | nil => intro w hw; simp at hw
  | cons a t ih =>
    cases t with
    | nil => intro w hw; simp at hw
    | cons b t =>
      intro w hw
      rw [intercalate_cons_cons]
      simp only [List.tail_cons, List.mem_cons] at hw
      simp only [List.length_append, List.length_singleton]
      rcases hw with h | h
      · subst h
        have := head_length_le_intercalate [0x20] w t
        omega
      · have := ih w (by simpa using h)
        omega

theorem intercalate_append (sep : GoString) (a b : List GoString) (ha : a ≠ [])
    (hb : b ≠ []) : sep.intercalate (a ++ b) = sep.intercalate a ++ (sep ++ sep.intercalate b) := by
  induction a with
  | nil => exact absurd rfl ha
  | cons x t ih =>
    cases t with
    | nil =>
      cases b with
      | nil => exact absurd rfl hb
      | cons y b => rw [List.singleton_append, intercalate_cons_cons, intercalate_single]
    | cons y t =>
      have h := ih (by simp)
      rw [List.cons_append, List.cons_append, intercalate_cons_cons, ← List.cons_append, h,
        intercalate_cons_cons]
      simp only [List.append_assoc]

theorem intercalate_map_groups (groups : List (List GoString))
    (hne : ∀ g ∈ groups, g ≠ []) :
    ([0x20] : GoString).intercalate (groups.map (([0x20] : GoString).intercalate)) =
      ([0x20] : GoString).intercalate groups.flatten := by
  induction groups with
  | nil => rfl
  | cons g gs ih =>
    have hg : g ≠ [] := hne g (List.mem_cons_self _ _)
    have ih' := ih (fun g h => hne g (List.mem_cons_of_mem _ h))
    cases gs with
    | nil => simp [intercalate_single]
    | cons h gs =>
      have hh : h ≠ [] := hne h (by simp)
      have hfl : (h :: gs).flatten ≠ [] := by
        simp only [List.flatten_cons]
        intro hnil
        exact hh (List.append_eq_nil.mp hnil).1
      have e : (g :: h :: gs).flatten = g ++ (h :: gs).flatten := rfl
      rw [e, intercalate_append _ _ _ hg hfl, List.map_cons, List.map_cons,
        intercalate_cons_cons, ← List.map_cons, ih']

theorem flatMap_splitOn_groups (groups : List (List GoString))
    (h : ∀ g ∈ groups, g ≠ [] ∧ ∀ w ∈ g, (0x20 : UInt8) ∉ w) :
    (groups.map (([0x20] : GoString).intercalate)).flatMap (List.splitOn 0x20) =
      groups.flatten := by
  induction groups with
  | nil => rfl
  | cons g gs ih =>
    have hg := h g (List.mem_cons_self _ _)
    rw [List.map_cons, List.flatMap_cons, List.flatten_cons,
      ih (fun g hmem => h g (List.mem_cons_of_mem _ hmem)),
      List.splitOn_intercalate g 0x20 hg.2 hg.1]

/-- The groups behind the lines of `WordWrap`, with the facts used below. -/
theorem wordWrap_groups (s : GoString) (width : ℤ) :
    ∃ groups : List (List GoString),
      WordWrap s width = groups.map (([0x20] : GoString).intercalate) ∧
      groups.flatten = Fields s ∧
      (∀ g ∈ groups, g ≠ [] ∧ ∀ w ∈ g, (0x20 : UInt8) ∉ w) ∧
      (∀ g ∈ groups, 2 ≤ g.length →
        ((([0x20] : GoString).intercalate g).length : ℤ) ≤ width) ∧
      List.Chain' (fun g h => ∀ w ∈ h.head?,
        ((([0x20] : GoString).intercalate g).length : ℤ) + 1 + (w.length : ℤ) > width)
        groups := by
  have hF := Fields_words s
  have hW := wordWrap_eq_groups s width
  rcases hFs : Fields s with _ | ⟨w0, rest⟩
  · rw [hFs] at hW
    exact ⟨[], by simpa using hW, rfl, by simp, by simp, List.chain'_nil⟩
  · rw [hFs] at hW hF
    have hflat := wrapGroups_flatten width rest [w0]
    refine ⟨wrapGroups width [w0] rest, hW, by simpa using hflat, ?_,
      wrapGroups_fits width rest [w0] (by simp) (by simp),
      wrapGroups_chain width rest [w0] (by simp)⟩
    intro g hg
    refine ⟨wrapGroups_ne_nil width rest [w0] (by simp) g hg, ?_⟩
    intro w hw
    have : w ∈ (wrapGroups width [w0] rest).flatten :=
      List.mem_flatten.mpr ⟨g, hg, hw⟩
    rw [hflat] at this
    exact (hF w (by simpa using this)).2

/-- C4: every line returned by `WordWrap s width` either has length at most
`width` or is a single word of `s` (it holds no space) whose own length
exceeds `width`; a line made of two or more words is never longer than
`width`. -/
theorem wordWrap_line_width (s : GoString) (width : ℤ) :
    ∀ line ∈ WordWrap s width,
      ((line.length : ℤ) ≤ width ∨
        (line ∈ Fields s ∧ (0x20 : UInt8) ∉ line ∧ width < (line.length : ℤ))) ∧
      (2 ≤ (line.splitOn 0x20).length → (line.length : ℤ) ≤ width) := by
  obtain ⟨groups, hW, hflat, hgrp, hfit, _⟩ := wordWrap_groups s width
  intro line hline
  rw [hW] at hline
  obtain ⟨g, hg, rfl⟩ := List.mem_map.mp hline
  obtain ⟨hne, hsp⟩ := hgrp g hg
  have hsplit : List.splitOn 0x20 (([0x20] : GoString).intercalate g) = g :=
    List.splitOn_intercalate g 0x20 hsp hne
  constructor
  · by_cases h2 : 2 ≤ g.length
    · exact Or.inl (hfit g hg h2)
    · match g, hne, h2 with
      | [w], _, _ =>
        rw [intercalate_single]
        by_cases hw : (w.length : ℤ) ≤ width
        · exact Or.inl hw
        · refine Or.inr ⟨?_, hsp w (by simp), by omega⟩
          rw [← hflat]
          exact List.mem_flatten.mpr ⟨[w], hg, by simp⟩
      | _ :: _ :: _, _, h2 => exact absurd (by simp) h2
  · rw [hsplit]
    exact hfit g hg

/-- Witness for C4: the overlong word of "a supercalifragilistic b" at width 5
is a line of its own. -/
theorem wordWrap_line_width_witness :
    go "supercalifragilistic" ∈ WordWrap (go "a supercalifragilistic b") 5 ∧
    ((((go "supercalifragilistic").length : ℤ) ≤ 5 ∨
        (go "supercalifragilistic" ∈ Fields (go "a supercalifragilistic b") ∧
          (0x20 : UInt8) ∉ go "supercalifragilistic" ∧
          (5 : ℤ) < ((go "supercalifragilistic").length : ℤ))) ∧
      (2 ≤ ((go "supercalifragilistic").splitOn 0x20).length →
        (((go "supercalifragilistic").length : ℤ) ≤ 5))) :=
  ⟨by decide,
   wordWrap_line_width (go "a supercalifragilistic b") 5 (go "supercalifragilistic")
     (by decide)⟩

/-- C5: `WordWrap` never splits, drops, duplicates or reorders a word:
splitting each returned line at its single spaces and concatenating the pieces
line by line gives exactly the words of `s` in order, and joining the returned
lines with one space equals joining the words of `s` with one space. -/
theorem wordWrap_preserves_words (s : GoString) (width : ℤ) :
    (WordWrap s width).flatMap (List.splitOn 0x20) = Fields s ∧
    (go " ").intercalate (WordWrap s width) = (go " ").intercalate (Fields s) := by
  obtain ⟨groups, hW, hflat, hgrp, _, _⟩ := wordWrap_groups s width
  constructor
  · rw [hW, flatMap_splitOn_groups groups hgrp, hflat]
  · rw [go_space, hW, intercalate_map_groups groups (fun g hg => (hgrp g hg).1), hflat]

/-- C6: `WordWrap` breaks a line only when the next word does not fit: for
consecutive returned lines `L` and `M`, `len L + 1 + len (first word of M)`
exceeds `width`. A word that is not the first of its line is shorter than
`width`, so a word as long as `width` fits only as the first word of a line.
"aaa bbb ccc" at width 3 gives one word per line, and "the quick brown fox
jumps" at width 15 gives "the quick brown" and "fox jumps". -/
theorem wordWrap_breaks_only_when_full (s : GoString) (width : ℤ) :
    (∀ (pre post : List GoString) (L M : GoString),
      WordWrap s width = pre ++ L :: M :: post →
      (L.length : ℤ) + 1 + ((((M.splitOn 0x20).headD []).length : ℕ) : ℤ) > width) ∧
    (∀ line ∈ WordWrap s width, ∀ w ∈ (line.splitOn 0x20).tail, (w.length : ℤ) < width) ∧
    WordWrap (go "aaa bbb ccc") 3 = [go "aaa", go "bbb", go "ccc"] ∧
    WordWrap (go "the quick brown fox jumps") 15 = [go "the quick brown", go "fox jumps"] := by
  obtain ⟨groups, hW, hflat, hgrp, hfit, hchain⟩ := wordWrap_groups s width
  refine ⟨?_, ?_, by decide, by decide⟩
  · intro pre post L M hsplit
    rw [hW] at hsplit
    obtain ⟨gpre, grest, hgs, hpre, hrest⟩ := List.map_eq_append_iff.mp hsplit
    obtain ⟨g, grest2, hgr, hL, hrest2⟩ := List.map_eq_cons_iff.mp hrest
    obtain ⟨h, gpost, hgr2, hM, _⟩ := List.map_eq_cons_iff.mp hrest2
    subst hgr2 hgr
    rw [hgs] at hchain
    have hc := (List.chain'_cons.mp (List.Chain'.right_of_append hchain)).1
    have hmem : h ∈ groups := by rw [hgs]; simp
    obtain ⟨hne, hsp⟩ := hgrp h hmem
    rw [← hL, ← hM, List.splitOn_intercalate h 0x20 hsp hne]
    match h, hne, hc with
    | a :: t, _, hc => exact hc a rfl
  · intro line hline w hw
    rw [hW] at hline
    obtain ⟨g, hg, rfl⟩ := List.mem_map.mp hline
    obtain ⟨hne, hsp⟩ := hgrp g hg
    rw [List.splitOn_intercalate g 0x20 hsp hne] at hw
    have h1 := tail_length_lt_intercalate g w hw
    have h2 : 2 ≤ g.length := by
      match g, hw with
      | [_], hw => simp at hw
      | _ :: _ :: _, _ => simp
    have h3 := hfit g hg h2
    omega

/-- Witness for C6: the break between the two lines of "the quick brown fox
jumps" at width 15. -/
theorem wordWrap_breaks_only_when_full_witness :
    WordWrap (go "the quick brown fox jumps") 15 =
      [] ++ go "the quick brown" :: go "fox jumps" :: [] ∧
    (((go "the quick brown").length : ℤ) + 1 +
      (((((go "fox jumps").splitOn 0x20).headD []).length : ℕ) : ℤ) > 15) :=
  ⟨by decide,
   (wordWrap_breaks_only_when_full (go "the quick brown fox jumps") 15).1 [] []
     (go "the quick brown") (go "fox jumps") (by decide)⟩

/-! ### `Truncate` -/

theorem decodeRune_ascii (b : UInt8) (rest : GoString) (hb : b.toNat < 0x80) :
    decodeRune (b :: rest) = (b.toNat, 1) := by
  simp [decodeRune, hb]

theorem rangeRunes_ascii_append (a rest : GoString) (n : ℕ)
    (ha : ∀ b ∈ a, b.toNat < 0x80) :
    rangeRunes (a.length + n) (a ++ rest) =
      a.map (fun b => (b.toNat, [b])) ++ rangeRunes n rest := by
  induction a with
  | nil => simp
  | cons b t ih =>
    have hb : b.toNat < 0x80 := ha b (List.mem_cons_self _ _)
    have ht := ih (fun c hc => ha c (List.mem_cons_of_mem _ hc))
    have e : (b :: t).length + n = (t.length + n) + 1 := by
      simp only [List.length_cons]; omega
    rw [e, List.cons_append, rangeRunes, decodeRune_ascii b _ hb]
    simp only [List.take_succ_cons, List.take_zero, List.drop_succ_cons, List.drop_zero,
      List.map_cons, List.cons_append]
    rw [ht]

theorem runeCount_ascii_append (a rest : GoString) (ha : ∀ b ∈ a, b.toNat < 0x80) :
    RuneCount (a ++ rest) = a.length + RuneCount rest := by
  unfold RuneCount
  rw [List.length_append, rangeRunes_ascii_append a rest rest.length ha]
  simp

/-- With `maxLen ≥ 1` the slice bound of `Truncate` is in range. -/
theorem truncate_of_pos (s : GoString) (maxLen : ℤ) (h1 : 1 ≤ maxLen)
    (h2 : maxLen < (s.length : ℤ)) :
    Truncate s maxLen = some (s.take (maxLen - 1).toNat ++ go "…") := by
  have hb : 0 ≤ maxLen - 1 ∧ maxLen - 1 ≤ (s.length : ℤ) := by omega
  simp only [Truncate, slicePrefix, not_le.mpr h2, if_false, hb, and_self, if_true]

/-- A string whose byte length is at most `maxLen` is returned unchanged. -/
theorem truncate_of_len_le (s : GoString) (maxLen : ℤ) (h : (s.length : ℤ) ≤ maxLen) :
    Truncate s maxLen = some s := by
  simp only [Truncate, h, if_true]

/-- The calls of `Truncate` that panic are exactly those with `maxLen < 1` and
`maxLen < len s`. -/
theorem truncate_eq_none_iff (s : GoString) (maxLen : ℤ) :
    Truncate s maxLen = none ↔ maxLen < 1 ∧ maxLen < (s.length : ℤ) := by
  by_cases hle : (s.length : ℤ) ≤ maxLen
  · rw [truncate_of_len_le s maxLen hle]
    constructor
    · intro h; cases h
    · intro h; omega
  · by_cases h1 : 1 ≤ maxLen
    · rw [truncate_of_pos s maxLen h1 (by omega)]
      constructor
      · intro h; cases h
      · intro h; omega
    · have hb : ¬ (0 ≤ maxLen - 1 ∧ maxLen - 1 ≤ (s.length : ℤ)) := by omega
      simp only [Truncate, slicePrefix, hle, if_false, hb]
      constructor
      · intro _; omega
      · intro _; trivial

/-- C8: for an ASCII string `s` and `1 ≤ max < len s`, `Truncate s max` is the
first `max - 1` characters of `s` followed by the single character "…", and
the result has exactly `max` characters; "this is too long" at 10 gives
"this is t…". -/
theorem truncate_ascii (s : GoString) (maxLen : ℤ)
    (hascii : ∀ b ∈ s, b.toNat < 0x80) (h1 : 1 ≤ maxLen) (h2 : maxLen < (s.length : ℤ)) :
    (∃ r, Truncate s maxLen = some r ∧
      r = s.take (maxLen - 1).toNat ++ go "…" ∧
      RuneCount (s.take (maxLen - 1).toNat) + 1 = maxLen ∧
      RuneCount (go "…") = 1 ∧
      (RuneCount r : ℤ) = maxLen) ∧
    Truncate (go "this is too long") 10 = some (go "this is t…") := by
  refine ⟨⟨_, truncate_of_pos s maxLen h1 h2, rfl, ?_, by decide, ?_⟩, by decide⟩
  · have htake : ∀ b ∈ s.take (maxLen - 1).toNat, b.toNat < 0x80 :=
      fun b hb => hascii b (List.mem_of_mem_take hb)
    have h := runeCount_ascii_append (s.take (maxLen - 1).toNat) [] htake
    rw [List.append_nil] at h
    rw [h, List.length_take]
    have : RuneCount [] = 0 := rfl
    rw [this]
    omega
  · have htake : ∀ b ∈ s.take (maxLen - 1).toNat, b.toNat < 0x80 :=
      fun b hb => hascii b (List.mem_of_mem_take hb)
    rw [runeCount_ascii_append _ _ htake, List.length_take]
    have : RuneCount (go "…") = 1 := by decide
    rw [this]
    omega

/-- Witness for C8 at "this is too long" and 10. -/
theorem truncate_ascii_witness :
    (∀ b ∈ go "this is too long", b.toNat < 0x80) ∧
    Truncate (go "this is too long") 10 = some (go "this is t…") ∧
    RuneCount (go "this is t…") = 10 :=
  ⟨by decide,
   (truncate_ascii (go "this is too long") 10 (by decide) (by decide) (by decide)).2,
   by decide⟩

/-- C7, the code at a failing input: "café" has 4 characters (5 bytes), yet at
`max = 4` it is not returned unchanged: the byte length 5 exceeds 4. -/
theorem truncate_counts_bytes :
    RuneCount (go "café") = 4 ∧ (go "café").length = 5 ∧
    Truncate (go "café") 4 = some (go "caf…") ∧
    Truncate (go "café") 4 ≠ some (go "café") := by
  decide

/-- C9, the code at a failing input: on the well-formed "ééé" at `max = 2`
the byte slice ends inside the first character; the part before the ellipsis
is the lone byte `0xC3` and the result is not well-formed UTF-8. -/
theorem truncate_splits_character :
    ValidString (go "ééé") = true ∧
    Truncate (go "ééé") 2 = some ([0xC3] ++ go "…") ∧
    ValidString [0xC3] = false ∧
    ValidString ([0xC3] ++ go "…") = false := by
  decide

/-- C10, counterexample: with a negative `max` the empty string is not
returned, and with `max = 0` a non-empty string is not truncated: the slice
bound `max - 1` is negative and the call panics. -/
theorem truncate_panics :
    Truncate (go "") (-1) = none ∧ Truncate (go "a") 0 = none ∧
    Truncate (go "abc") (-5) = none := by
  decide

/-- C10, amended: `Truncate s max` returns a string, with no out-of-range
slice, for every string `s` and every integer `max` with `max ≥ 1` or
`len s ≤ max`; it panics exactly when `max < 1` and `max < len s`; the empty
string is returned unchanged for every `max ≥ 0`. -/
theorem truncate_total (s : GoString) (maxLen : ℤ)
    (h : 1 ≤ maxLen ∨ (s.length : ℤ) ≤ maxLen) :
    (∃ r, Truncate s maxLen = some r) ∧
    (∀ (t : GoString) (m : ℤ), Truncate t m = none ↔ m < 1 ∧ m < (t.length : ℤ)) ∧
    (∀ m : ℤ, 0 ≤ m → Truncate (go "") m = some (go "")) := by
  refine ⟨?_, truncate_eq_none_iff, ?_⟩
  · rcases hT : Truncate s maxLen with _ | r
    · have := (truncate_eq_none_iff s maxLen).mp hT
      omega
    · exact ⟨r, rfl⟩
  · intro m hm
    exact truncate_of_len_le (go "") m (by simpa [go_empty] using hm)

/-- Witness for C10 at "this is too long" and 10. -/
theorem truncate_total_witness :
    ((1 : ℤ) ≤ 10 ∨ (((go "this is too long").length : ℕ) : ℤ) ≤ 10) ∧
    (∃ r, Truncate (go "this is too long") 10 = some r) :=
  ⟨Or.inl (by norm_num), (truncate_total (go "this is too long") 10 (Or.inl (by norm_num))).1⟩

/-! ### `CompassDir` outside `[0, 360]` -/

theorem dirs_ne_nil : ∀ l ∈ dirs, l ≠ [] := by decide

theorem index_mem {α : Type} {xs : List α} {i : ℤ} {a : α} (h : index xs i = some a) :
    a ∈ xs := by
  unfold index at h
  split_ifs at h
  exact List.get?_mem h

/-- A present heading never gives the empty string: the call panics or
returns a label of the table. -/
theorem compassDir_some_ne_empty (d : ℚ) : CompassDir (some d) ≠ some (go "") := by
  intro h
  exact dirs_ne_nil _ (index_mem h) rfl

/-- On every heading that is not negative `CompassDir` returns a label. -/
theorem compassDir_of_nonneg {d : ℚ} (h0 : 0 ≤ d) :
    ∃ l ∈ dirs, CompassDir (some d) = some l := by
  have hx : (0 : ℚ) ≤ d / 22.5 := div_nonneg h0 (by norm_num)
  have hn0 : (0 : ℤ) ≤ round (d / 22.5) := by
    rw [round_eq]; exact Int.floor_nonneg.mpr (by linarith)
  obtain ⟨n, hn⟩ := Int.eq_ofNat_of_zero_le hn0
  obtain ⟨l, hl, _⟩ := dirs_get_ne_nil (n % 16) (Nat.mod_lt _ (by norm_num))
  exact ⟨l, List.get?_mem hl, by rw [compassDir_of_round h0 hn, hl]⟩

theorem mathRound_neg45 : mathRound ((-45 : ℚ) / 22.5) = -2 := by
  have h : ¬ (0 : ℚ) ≤ (-45 : ℚ) / 22.5 := by norm_num
  unfold mathRound
  rw [if_neg h]
  norm_num [Int.floor_eq_iff]

/-- C11, the code at a failing input: for the heading `-45` the rounded
quotient is `-2`, Go's `%` leaves it at `-2`, and indexing the table with it
panics. -/
theorem compassDir_negative_panics :
    mathRound ((-45 : ℚ) / 22.5) = -2 ∧ Int.tmod (-2) 16 = -2 ∧
    CompassDir (some (-45)) = none := by
  refine ⟨mathRound_neg45, by decide, ?_⟩
  simp only [CompassDir, mathRound_neg45]
  decide

/-- C15: `CompassDir` returns the empty string exactly when the heading is
absent: the absent heading gives "", and every present heading in `[0, 360]`,
`0` included, gives a non-empty label. -/
theorem compassDir_empty_iff_absent (dir : Option ℚ)
    (hdir : ∀ d, dir = some d → 0 ≤ d ∧ d ≤ 360) :
    (∃ l, CompassDir dir = some l ∧ (l = go "" ↔ dir = none)) ∧
    CompassDir none = some (go "") ∧
    (∀ d : ℚ, 0 ≤ d → d ≤ 360 → ∃ l, CompassDir (some d) = some l ∧ l ≠ go "") ∧
    CompassDir (some 0) = some (go "N") := by
  refine ⟨?_, rfl, ?_, ?_⟩
  · obtain ⟨l, hl, hiff⟩ := compassDir_of_hdir dir hdir
    exact ⟨l, hl, by rw [go_empty]; exact hiff⟩
  · intro d h0 h360
    obtain ⟨l, hl, hne⟩ := compassDir_label h0 h360
    exact ⟨l, hl, by rw [go_empty]; exact hne⟩
  · have h : round ((0 : ℚ) / 22.5) = ((0 : ℕ) : ℤ) := by
      rw [round_eq]; norm_num
    rw [compassDir_of_round (le_refl 0) h]; rfl

/-- Witness for C15 at the heading 0. -/
theorem compassDir_empty_iff_absent_witness :
    (∀ d : ℚ, some (0 : ℚ) = some d → 0 ≤ d ∧ d ≤ 360) ∧
    (∃ l, CompassDir (some 0) = some l ∧ (l = go "" ↔ some (0 : ℚ) = none)) :=
  have h : ∀ d : ℚ, some (0 : ℚ) = some d → 0 ≤ d ∧ d ≤ 360 := by
    intro d hd
    cases hd
    constructor <;> norm_num
  ⟨h, (compassDir_empty_iff_absent (some 0) h).1⟩

/-! ### Unit conversions, `FmtVal`, `FormatTime` -/

/-- C17: in exact arithmetic the conversions are the listed formulas, and the
listed values follow. -/
theorem conversions_exact :
    (∀ x : ℚ, CToF x = x * 9 / 5 + 32 ∧ KmhToMph x = x * 0.621371 ∧
      MetersToMiles x = x / 1609.34 ∧ PaToInHg x = x / 3386.39) ∧
    CToF 0 = 32 ∧ CToF 100 = 212 ∧ CToF (-40) = -40 ∧ KmhToMph 0 = 0 ∧
    MetersToMiles 1609.34 = 1 ∧
    |KmhToMph 100 - 62.1371| ≤ 0.01 ∧ |KmhToMph 1.60934 - 1.0| ≤ 0.01 ∧
    |PaToInHg 101325 - 29.92| ≤ 0.01 := by
  refine ⟨fun x => ⟨?_, rfl, rfl, rfl⟩, ?_, ?_, ?_, ?_, ?_, ?_, ?_, ?_⟩
  · unfold CToF; norm_num
  · unfold CToF; norm_num
  · unfold CToF; norm_num
  · unfold CToF; norm_num
  · unfold KmhToMph; norm_num
  · unfold MetersToMiles; norm_num
  · unfold KmhToMph; rw [abs_le]; constructor <;> norm_num
  · unfold KmhToMph; rw [abs_le]; constructor <;> norm_num
  · unfold PaToInHg; rw [abs_le]; constructor <;> norm_num

/-- C14: for every formatter `fn`, `FmtVal` of an absent value is the
placeholder "-" whatever `fn` does (even a formatter that always panics is not
consulted), and `FmtVal` of a present value `v`, zero included, is `fn v`. -/
theorem fmtVal_spec (fn : ℚ → Option GoString) :
    FmtVal none fn = some (go "-") ∧
    FmtVal none (fun _ => none) = some (go "-") ∧
    (∀ v : ℚ, FmtVal (some v) fn = fn v) ∧
    FmtVal (some 0) fn = fn 0 :=
  ⟨rfl, rfl, fun _ => rfl, rfl⟩

/-- C12: a string that does not parse is returned unchanged, whatever the
parser and the renderer are. With the two facts of Go's `time` package that a
string parsed with the RFC 3339 layout has at least 19 bytes and that the
layout "Jan 02 15:04" renders 12 bytes, "not-a-timestamp" comes back unchanged,
and a string that parses gives the rendering of its instant, which is not the
raw input. -/
theorem formatTime_fallback {T : Type} (parse : GoString → Option T) (render : T → GoString) :
    (∀ ts, parse ts = none → FormatTime parse render ts = ts) ∧
    ((∀ s t, parse s = some t → 19 ≤ s.length) → (∀ t, (render t).length = 12) →
      FormatTime parse render (go "not-a-timestamp") = go "not-a-timestamp" ∧
      ∀ ts t, parse ts = some t →
        FormatTime parse render ts = render t ∧ FormatTime parse render ts ≠ ts) := by
  have hnone : ∀ ts, parse ts = none → FormatTime parse render ts = ts := by
    intro ts h
    simp only [FormatTime, h]
  refine ⟨hnone, fun hparse hrender => ⟨?_, ?_⟩⟩
  · apply hnone
    rcases h : parse (go "not-a-timestamp") with _ | t
    · rfl
    · have := hparse _ t h
      exact absurd this (by decide)
  · intro ts t h
    have heq : FormatTime parse render ts = render t := by
      simp only [FormatTime, h]
    refine ⟨heq, ?_⟩
    intro hraw
    have h1 := hparse ts t h
    have h2 := hrender t
    rw [← heq, hraw] at h2
    omega

theorem sampleParse_length (s : GoString) (t : Unit) (h : sampleParse s = some t) :
    19 ≤ s.length := by
  unfold sampleParse at h
  split_ifs at h with hs
  rw [hs]
  decide

/-- Witness for C12: the timestamp of the tests on a machine five hours
behind UTC, and the string that does not parse. -/
theorem formatTime_fallback_witness :
    FormatTime sampleParse sampleRender (go "not-a-timestamp") = go "not-a-timestamp" ∧
    FormatTime sampleParse sampleRender (go "2026-02-17T18:15:00+00:00") =
      go "Feb 17 13:15" ∧
    FormatTime sampleParse sampleRender (go "2026-02-17T18:15:00+00:00") ≠
      go "2026-02-17T18:15:00+00:00" :=
  have hr : ∀ t : Unit, (sampleRender t).length = 12 := fun _ => rfl
  have h := (formatTime_fallback sampleParse sampleRender).2 sampleParse_length hr
  ⟨h.1, (h.2 _ () (by decide)).1, (h.2 _ () (by decide)).2⟩

/-! ### `NullFloat64` -/

theorem roundFloat64_zero : roundFloat64 0 = 0 := by
  simp [roundFloat64]

theorem parseFloat64_of_float64 {x : ℚ} (hx : roundFloat64 x = x) (hr : |x| < 2 ^ 1024) :
    parseFloat64 x = some x := by
  unfold parseFloat64
  simp only
  rw [hx]
  exact if_pos hr

theorem unmarshalNullFloat64_number (y : ℚ) :
    unmarshalNullFloat64 (.number y) =
      match parseFloat64 y with
      | none => none
      | some r => some { Value := some r } := by
  unfold unmarshalNullFloat64 unmarshalPtrFloat64
  dsimp only
  generalize parseFloat64 y = o
  cases o <;> rfl

set_option exponentiation.threshold 2000 in
/-- The float64 nearest to `10^400` is out of range. -/
theorem parseFloat64_overflow : parseFloat64 (10 ^ 400) = none := by
  have h : roundFloat64 ((10 : ℚ) ^ 400) = 7686445155841023 * (2 : ℚ) ^ ((1328 : ℤ) - 52) := by
    have := roundFloat64_eq (x := (10 : ℚ) ^ 400) 1328 7686445155841023 (by norm_num)
      (by rw [abs_of_pos (by norm_num)]; norm_num)
      (by rw [abs_of_pos (by norm_num)]; norm_num)
      (by rw [abs_lt]; constructor <;> norm_num)
    exact_mod_cast this
  have hbig : ¬ (|(7686445155841023 : ℚ) * (2 : ℚ) ^ ((1328 : ℤ) - 52)| < 2 ^ 1024) := by
    rw [abs_of_pos (by norm_num)]
    norm_num
  unfold parseFloat64
  simp only
  rw [h]
  exact if_neg hbig

/-- C13, counterexample: the record whose number is `1e400` does not decode to
a present `Value`: the number is out of the float64 range and the decoder
returns an error. -/
theorem nullFloat64_overflow_error :
    unmarshalNullFloat64 (.number (10 ^ 400)) = none ∧
    ¬ ∃ v : ℚ, unmarshalNullFloat64 (.number (10 ^ 400)) = some { Value := some v } := by
  have h : unmarshalNullFloat64 (.number (10 ^ 400)) = none := by
    rw [unmarshalNullFloat64_number, parseFloat64_overflow]
  refine ⟨h, ?_⟩
  rintro ⟨v, hv⟩
  rw [h] at hv
  cases hv

/-- C13, amended: decoding keeps absent, present-with-zero and
present-nonzero apart: for every number `x` that is a float64 (zero and
negatives included) the record with `x` decodes to a present `Value` equal to
`x`; a number inside the float64 range that float64 does not hold decodes to a
present `Value` equal to the nearest float64; the record with `null` decodes
to an absent `Value`; and the record with a number never decodes to what the
record with `null` decodes to, so a decoded zero is never equal to a decoded
null. -/
theorem nullFloat64_decode_float64 (x : ℚ) (hx : roundFloat64 x = x)
    (hr : |x| < 2 ^ 1024) :
    unmarshalNullFloat64 (.number x) = some { Value := some x } ∧
    (∀ y : ℚ, |roundFloat64 y| < 2 ^ 1024 →
      unmarshalNullFloat64 (.number y) = some { Value := some (roundFloat64 y) }) ∧
    unmarshalNullFloat64 (.number 0) = some { Value := some 0 } ∧
    unmarshalNullFloat64 .null = some { Value := none } ∧
    (∀ y : ℚ, unmarshalNullFloat64 (.number y) ≠ unmarshalNullFloat64 .null) ∧
    unmarshalNullFloat64 (.number 0) ≠ unmarshalNullFloat64 .null := by
  have hnum : ∀ y : ℚ, |roundFloat64 y| < 2 ^ 1024 →
      unmarshalNullFloat64 (.number y) = some { Value := some (roundFloat64 y) } := by
    intro y hy
    rw [unmarshalNullFloat64_number]
    have hp : parseFloat64 y = some (roundFloat64 y) := by
      unfold parseFloat64
      exact if_pos hy
    rw [hp]
  have hne : ∀ y : ℚ, unmarshalNullFloat64 (.number y) ≠ unmarshalNullFloat64 .null := by
    intro y h
    rw [unmarshalNullFloat64_number] at h
    have hnull : unmarshalNullFloat64 .null = some { Value := none } := rfl
    rw [hnull] at h
    rcases hp : parseFloat64 y with _ | r
    · rw [hp] at h; cases h
    · rw [hp] at h
      simp only [Option.some.injEq, NullFloat64.mk.injEq] at h
      cases h
  have hzero : unmarshalNullFloat64 (.number 0) = some { Value := some 0 } := by
    have := hnum 0 (by rw [roundFloat64_zero]; norm_num)
    rwa [roundFloat64_zero] at this
  refine ⟨?_, hnum, hzero, rfl, hne, hne 0⟩
  rw [unmarshalNullFloat64_number, parseFloat64_of_float64 hx hr]

theorem roundFloat64_neg_ten_half : roundFloat64 (-10.5) = -10.5 := by
  rw [roundFloat64_eq 3 (-5910974510923776) (by norm_num)
    (by rw [abs_of_neg (by norm_num)]; norm_num)
    (by rw [abs_of_neg (by norm_num)]; norm_num)
    (by rw [abs_lt]; constructor <;> norm_num)]
  norm_num

/-- Witness for C13 at the number `-10.5` of the tests. -/
theorem nullFloat64_decode_float64_witness :
    roundFloat64 (-10.5) = -10.5 ∧ |(-10.5 : ℚ)| < 2 ^ 1024 ∧
    unmarshalNullFloat64 (.number (-10.5)) = some { Value := some (-10.5) } :=
  have hr : |(-10.5 : ℚ)| < 2 ^ 1024 := by
    rw [abs_of_neg (by norm_num)]; norm_num
  ⟨roundFloat64_neg_ten_half, hr,
   (nullFloat64_decode_float64 (-10.5) roundFloat64_neg_ten_half hr).1⟩

/-! ### `DetectLocation` -/

/-- When the geolocation fails (an error, or a status other than "success")
the three fields are the defaults. -/
theorem detectLocation_geo_failure (geoIP : Option geoIPResponse)
    (nearestStation : ℚ → ℚ → Option (GoString × GoString))
    (h : ∀ geo, geoIP = some geo → geo.Status ≠ go "success") :
    (DetectLocation geoIP nearestStation).Station = Default.Station ∧
    (DetectLocation geoIP nearestStation).Latitude = Default.Latitude ∧
    (DetectLocation geoIP nearestStation).Longitude = Default.Longitude := by
  rcases geoIP with _ | geo
  · exact ⟨rfl, rfl, rfl⟩
  · have hs := h geo rfl
    simp only [DetectLocation, hs, ne_eq, not_false_eq_true, if_true, and_self]

/-- When the geolocation succeeds and the station lookup fails, the station is
the default one and the coordinates are those of the geolocation. -/
theorem detectLocation_station_failure (geo : geoIPResponse)
    (nearestStation : ℚ → ℚ → Option (GoString × GoString))
    (hs : geo.Status = go "success") (hn : nearestStation geo.Lat geo.Lon = none) :
    (DetectLocation (some geo) nearestStation).Station = Default.Station ∧
    (DetectLocation (some geo) nearestStation).Latitude = geo.Lat ∧
    (DetectLocation (some geo) nearestStation).Longitude = geo.Lon := by
  simp [DetectLocation, hs, hn]

/-- C18, the code at a failing input: the geolocation answers "success" with
the coordinates `(51.5, -0.12)` and the station lookup fails; the station
returned is the default one, but the latitude and the longitude are those of
the geolocation, not the defaults. -/
theorem detectLocation_keeps_geo_coordinates :
    (DetectLocation (some sampleGeo) (fun _ _ => none)).Station = Default.Station ∧
    (DetectLocation (some sampleGeo) (fun _ _ => none)).Latitude = 51.5 ∧
    (DetectLocation (some sampleGeo) (fun _ _ => none)).Longitude = -0.12 ∧
    (DetectLocation (some sampleGeo) (fun _ _ => none)).Latitude ≠ Default.Latitude ∧
    (DetectLocation (some sampleGeo) (fun _ _ => none)).Longitude ≠ Default.Longitude := by
  obtain ⟨h1, h2, h3⟩ := detectLocation_station_failure sampleGeo (fun _ _ => none) rfl rfl
  refine ⟨h1, h2, h3, ?_, ?_⟩
  · rw [h2]; simp only [sampleGeo, Default]; norm_num
  · rw [h3]; simp only [sampleGeo, Default]; norm_num

/-! ### `WordWrap`: empty results and the number of lines -/

theorem rangeRunes_bytes_ne_nil (fuel : ℕ) (s : GoString) :
    ∀ rb ∈ rangeRunes fuel s, rb.2 ≠ [] := by
  induction fuel generalizing s with
  | zero => intro rb h; simp [rangeRunes] at h
  | succ n ih =>
    rcases s with _ | ⟨b, rest⟩
    · intro rb h; simp [rangeRunes] at h
    · intro rb h
      simp only [rangeRunes, List.mem_cons] at h
      rcases h with h | h
      · subst h
        have hw := decodeRune_width_pos b rest
        obtain ⟨k, hk⟩ : ∃ k, (decodeRune (b :: rest)).2 = k + 1 := ⟨_, (Nat.sub_add_cancel hw).symm⟩
        simp only [hk, List.take_succ_cons]
        exact List.cons_ne_nil _ _
      · exact ih _ rb h

theorem fieldsLoop_eq_nil_iff (l : List (ℕ × GoString)) (cur : GoString)
    (hl : ∀ rb ∈ l, rb.2 ≠ []) :
    fieldsLoop l cur = [] ↔ cur = [] ∧ ∀ rb ∈ l, IsSpace rb.1 = true := by
  induction l generalizing cur with
  | nil =>
    by_cases hc : cur = [] <;> simp [fieldsLoop, hc]
  | cons rb rest ih =>
    obtain ⟨r, bs⟩ := rb
    have hrest : ∀ rb ∈ rest, rb.2 ≠ [] := fun rb h => hl rb (List.mem_cons_of_mem _ h)
    have hbs : bs ≠ [] := hl (r, bs) (List.mem_cons_self _ _)
    by_cases hsp : IsSpace r = true
    · by_cases hc : cur = []
      · simp only [fieldsLoop, hsp, hc, if_true, ih [] hrest, true_and, List.mem_cons,
          forall_eq_or_imp]
      · simp [fieldsLoop, hsp, hc]
    · have hne : cur ++ bs ≠ [] := by simp [hbs]
      have hf : IsSpace r = false := by simpa using hsp
      have hstep : fieldsLoop ((r, bs) :: rest) cur = fieldsLoop rest (cur ++ bs) := by
        simp [fieldsLoop, hf]
      rw [hstep, ih (cur ++ bs) hrest]
      constructor
      · intro h; exact absurd h.1 hne
      · intro h
        have := h.2 (r, bs) (List.mem_cons_self _ _)
        simp [hf] at this

/-- A string has no words exactly when each of its characters is white
space. -/
theorem Fields_eq_nil_iff (s : GoString) :
    Fields s = [] ↔ ∀ rb ∈ rangeRunes s.length s, IsSpace rb.1 = true := by
  unfold Fields
  rw [fieldsLoop_eq_nil_iff _ [] (rangeRunes_bytes_ne_nil _ s)]
  simp

theorem wordWrap_eq_nil_iff (s : GoString) (width : ℤ) :
    WordWrap s width = [] ↔ Fields s = [] := by
  unfold WordWrap
  rcases Fields s with _ | ⟨w0, rest⟩
  · simp
  · simp

/-- C16: `WordWrap s width` is the empty sequence exactly when `s` has no
words, which is when `s` is empty or all of its characters are white space;
when `s` has a word the result has at least one line; no returned line is
empty. -/
theorem wordWrap_empty_iff (s : GoString) (width : ℤ) :
    (WordWrap s width = [] ↔ Fields s = []) ∧
    (Fields s = [] ↔ ∀ rb ∈ rangeRunes s.length s, IsSpace rb.1 = true) ∧
    (Fields s ≠ [] → 1 ≤ (WordWrap s width).length) ∧
    (∀ line ∈ WordWrap s width, line ≠ []) ∧
    WordWrap (go "") width = [] ∧ WordWrap (go " \t\n ") width = [] := by
  refine ⟨wordWrap_eq_nil_iff s width, Fields_eq_nil_iff s, ?_, ?_, ?_, ?_⟩
  · intro h
    have hne : WordWrap s width ≠ [] := fun h0 => h ((wordWrap_eq_nil_iff s width).mp h0)
    rcases hW : WordWrap s width with _ | ⟨a, t⟩
    · exact absurd hW hne
    · simp
  · obtain ⟨groups, hW, hflat, hgrp, _, _⟩ := wordWrap_groups s width
    intro line hline
    rw [hW] at hline
    obtain ⟨g, hg, rfl⟩ := List.mem_map.mp hline
    obtain ⟨hne, _⟩ := hgrp g hg
    match g, hne, hg with
    | a :: t, _, hg =>
      have ha : a ∈ Fields s := by
        rw [← hflat]
        exact List.mem_flatten.mpr ⟨a :: t, hg, List.mem_cons_self _ _⟩
      have ha0 : a ≠ [] := (Fields_words s a ha).1
      have hlen := head_length_le_intercalate [0x20] a t
      intro hnil
      rw [hnil] at hlen
      exact ha0 (List.length_eq_zero.mp (by simpa using hlen))
  · exact (wordWrap_eq_nil_iff _ width).mpr (by decide)
  · exact (wordWrap_eq_nil_iff _ width).mpr (by decide)

theorem intercalate_length_suffix (a c : List GoString) :
    (([0x20] : GoString).intercalate c).length ≤
      (([0x20] : GoString).intercalate (a ++ c)).length := by
  by_cases ha : a = []
  · subst ha; simp
  · by_cases hc : c = []
    · subst hc; simp [List.intercalate]
    · rw [intercalate_append _ _ _ ha hc]
      simp only [List.length_append]
      omega

theorem intercalate_length_prefix (a c : List GoString) :
    (([0x20] : GoString).intercalate a).length ≤
      (([0x20] : GoString).intercalate (a ++ c)).length := by
  by_cases hc : c = []
  · subst hc; simp
  · by_cases ha : a = []
    · subst ha; simp [List.intercalate]
    · rw [intercalate_append _ _ _ ha hc]
      simp only [List.length_append]
      omega

/-- A grouping of a word list into lines that fit gives, for every suffix of
the word list, a grouping into lines that fit with no more lines. -/
theorem trim_grouping (width : ℤ) (P : List (List GoString))
    (hP : ∀ g ∈ P, fitsLine width g) (a b : List GoString) (h : P.flatten = a ++ b) :
    ∃ Q : List (List GoString), Q.flatten = b ∧ (∀ g ∈ Q, fitsLine width g) ∧
      Q.length ≤ P.length := by
  induction P generalizing a with
  | nil =>
    have hb : b = [] := by
      have : a ++ b = [] := by simpa using h.symm
      exact (List.append_eq_nil.mp this).2
    exact ⟨[], by simp [hb], by simp, le_refl _⟩
  | cons g Pt ih =>
    have hPt : ∀ g ∈ Pt, fitsLine width g := fun g hg => hP g (List.mem_cons_of_mem _ hg)
    have hg : fitsLine width g := hP g (List.mem_cons_self _ _)
    rw [List.flatten_cons] at h
    rcases List.append_eq_append_iff.mp h with ⟨a', _, h2⟩ | ⟨c', h1, h2⟩
    · obtain ⟨Q, hQ1, hQ2, hQ3⟩ := ih hPt a' h2
      exact ⟨Q, hQ1, hQ2, by simp only [List.length_cons]; omega⟩
    · by_cases hc : c' = []
      · subst hc
        exact ⟨Pt, by simpa using h2.symm, hPt, by simp⟩
      · refine ⟨c' :: Pt, by rw [List.flatten_cons, h2], ?_, by simp⟩
        intro q hq
        rcases List.mem_cons.mp hq with hq | hq
        · subst hq
          refine ⟨hc, ?_⟩
          rcases hg.2 with hlen | hlen
          · left
            rw [h1, List.length_append] at hlen
            have : 1 ≤ q.length := by
              rcases q with _ | ⟨x, t⟩
              · exact absurd rfl hc
              · simp
            omega
          · right
            have := intercalate_length_suffix a q
            rw [← h1] at this
            omega
        · exact hPt q hq

/-- The greedy grouping has no more lines than any grouping into lines that
fit. -/
theorem wrapGroups_length_le (width : ℤ) (ws : List GoString) :
    ∀ cur : List GoString, cur ≠ [] → ∀ P : List (List GoString),
      P.flatten = cur ++ ws → (∀ g ∈ P, fitsLine width g) →
      (wrapGroups width cur ws).length ≤ P.length := by
  induction ws with
  | nil =>
    intro cur hcur P hflat _
    rcases P with _ | ⟨g, Pt⟩
    · simp at hflat
      exact absurd hflat hcur
    · simp [wrapGroups]
  | cons w ws ih =>
    intro cur hcur P hflat hP
    by_cases hbrk : ((([0x20] : GoString).intercalate cur).length : ℤ) + 1 + (w.length : ℤ) > width
    · rw [wrapGroups, if_pos hbrk, List.length_cons]
      rcases P with _ | ⟨g, Pt⟩
      · simp at hflat
      · have hPt : ∀ g ∈ Pt, fitsLine width g := fun g hg => hP g (List.mem_cons_of_mem _ hg)
        have hg : fitsLine width g := hP g (List.mem_cons_self _ _)
        rw [List.flatten_cons] at hflat
        simp only [List.length_cons, add_le_add_iff_right]
        rcases List.append_eq_append_iff.mp hflat with ⟨a', _, h2⟩ | ⟨c', h1, h2⟩
        · obtain ⟨Q, hQ1, hQ2, hQ3⟩ := trim_grouping width Pt hPt a' (w :: ws) h2
          exact le_trans (ih [w] (by simp) Q (by simpa using hQ1) hQ2) hQ3
        · rcases c' with _ | ⟨x, c''⟩
          · exact ih [w] (by simp) Pt (by simpa using h2.symm) hPt
          · exfalso
            have hx : x = w := by
              simp only [List.cons_append, List.cons.injEq] at h2
              exact h2.1.symm
            subst hx
            have hgeq : g = (cur ++ [x]) ++ c'' := by rw [h1]; simp
            have hlen2 : 2 ≤ g.length := by
              rw [hgeq]
              have : 1 ≤ cur.length := by
                rcases cur with _ | ⟨y, t⟩
                · exact absurd rfl hcur
                · simp
              simp only [List.length_append, List.length_singleton]
              omega
            rcases hg.2 with hl | hl
            · omega
            · have h3 := intercalate_length_prefix (cur ++ [x]) c''
              rw [← hgeq, intercalate_append_singleton _ _ _ hcur] at h3
              simp only [List.length_append, List.length_singleton] at h3
              omega
    · rw [wrapGroups, if_neg hbrk]
      exact ih (cur ++ [w]) (by simp) P (by simpa using hflat) hP

/-- C19: `WordWrap` uses the fewest lines possible: no grouping of the words
of `s`, in order, into lines that are each a single word or a single-space
join of length at most `width`, has fewer lines than `WordWrap s width`. -/
theorem wordWrap_fewest_lines (s : GoString) (width : ℤ) (P : List (List GoString))
    (hwords : P.flatten = Fields s)
    (hlines : ∀ g ∈ P, g ≠ [] ∧
      (g.length = 1 ∨ (((go " ").intercalate g).length : ℤ) ≤ width)) :
    (WordWrap s width).length ≤ P.length := by
  have hP : ∀ g ∈ P, fitsLine width g := by
    intro g hg
    have := hlines g hg
    rw [go_space] at this
    exact this
  have hW := wordWrap_eq_groups s width
  rcases hF : Fields s with _ | ⟨w0, rest⟩
  · rw [hF] at hW
    rw [hW]
    simp
  · rw [hF] at hW hwords
    rw [hW, List.length_map]
    exact wrapGroups_length_le width rest [w0] (by simp) P (by simpa using hwords) hP

/-- Witness for C19: a grouping of "the quick brown fox jumps" into three
lines at width 15, against the two lines of `WordWrap`. -/
theorem wordWrap_fewest_lines_witness :
    [[go "the", go "quick"], [go "brown", go "fox"], [go "jumps"]].flatten =
      Fields (go "the quick brown fox jumps") ∧
    (WordWrap (go "the quick brown fox jumps") 15).length = 2 ∧
    (WordWrap (go "the quick brown fox jumps") 15).length ≤
      [[go "the", go "quick"], [go "brown", go "fox"], [go "jumps"]].length :=
  ⟨by decide, by decide,
   wordWrap_fewest_lines (go "the quick brown fox jumps") 15
     [[go "the", go "quick"], [go "brown", go "fox"], [go "jumps"]] (by decide) (by decide)⟩

end Lastwind
